import Mathlib

/-!
# Minimum delivery cost search (`main.go`)

A shallow embedding of the facility catalog and of the recursive cost search
of the delivery-cost service, followed by theorems about the search.

Modelling conventions.

* A Go `map[string]V` is an association list with unique keys
  (`AList (fun _ : String => V)`): `m[k]` reads `lookup` with the zero value as
  default, `m[k] = v` is `insert`, `delete(m, k)` is `erase`, `len(m)` is the
  number of entries and `range` folds over the entries.
* Go `int` is the 64 bit two's complement integer: a value of type `Int` kept
  in range by `wrapInt` after every arithmetic operation.
* Recursion is bounded by an explicit fuel argument counting nested calls;
  running out of fuel yields `none`, and `none` propagates through the loops.
* Where aliasing matters, maps are references into a `Heap` and every write is
  a heap write (`calculateCostHeap`); that run is proved to return what the run
  on map values (`calculateCostFuel`) returns.
-/

namespace MinDeliveryCost

/-- Go `map[string]V`. -/
abbrev GoMap (V : Type) := AList (fun _ : String => V)

/-- Go `m[k]` with the zero value `zero` returned for an absent key. -/
def mapIndex {V : Type} (m : GoMap V) (k : String) (zero : V) : V :=
  (m.lookup k).getD zero

/-- Go `len(m)`. -/
def mapLen {V : Type} (m : GoMap V) : Nat :=
  m.entries.length

/-- The constant `math.MaxInt` for the 64 bit `int`. -/
def maxInt : Int := 9223372036854775807

/-- Reduction of an exact integer to the 64 bit two's complement range. -/
def wrapInt (x : Int) : Int :=
  (x + 9223372036854775808) % 18446744073709551616 - 9223372036854775808

/-- The list `centers` of facility identifiers, in source order. -/
def centers : List String := ["C1", "C2", "C3"]

/-- The map `centerDistances` from facility to distance. -/
def centerDistances : GoMap Int :=
  (((∅ : GoMap Int).insert "C3" 30).insert "C2" 20).insert "C1" 10

/-- The constant `costPerKm`. -/
def costPerKm : Int := 2

/-- The map `centerStock` of center to available products. -/
def centerStock : GoMap (List String) :=
  (((∅ : GoMap (List String)).insert "C3" ["C", "D", "G", "H", "I"]).insert
    "C2" ["B", "C", "F", "I"]).insert "C1" ["A", "B", "E", "H"]

/-- The type `Order`, a `map[string]int` from product to quantity. -/
abbrev Order := GoMap Int

/-- The `visited` argument, a `map[string]bool`. -/
abbrev Visited := GoMap Bool

/-- The function `copyMap`: a fresh map receiving every entry of `orig`. -/
def copyMap (orig : Visited) : Visited :=
  orig.foldl (fun newMap k v => newMap.insert k v) ∅

/-- First loop of `calculateCost`: `remaining` is a fresh map receiving every
entry of `order`. -/
def copyOrder (order : Order) : Order :=
  order.foldl (fun remaining k v => remaining.insert k v) ∅

/-- Second loop of `calculateCost`: every product of `available` that is a key
of `remaining` is deleted from it. -/
def deductStock (remaining : Order) (available : List String) : Order :=
  available.foldl
    (fun remaining prod =>
      if (remaining.lookup prod).isSome then remaining.erase prod else remaining)
    remaining

/-- The round trip cost `2*distance*costPerKm` of `current`, in machine
arithmetic. -/
def roundTrip (current : String) : Int :=
  wrapInt (wrapInt (2 * mapIndex centerDistances current 0) * costPerKm)

/-- The update `if cost < min { min = cost }` of a running minimum; a
computation that ran out of fuel on either side propagates. -/
def lowerTo (min cost : Option Int) : Option Int :=
  match min, cost with
  | some min, some cost => if cost < min then some cost else some min
  | _, _ => none

/-- The function `calculateCost`, with `fuel` bounding the number of nested calls. -/
def calculateCostFuel : Nat → Order → String → Visited → Int → Option Int
  | 0, _, _, _, _ => none
  | fuel + 1, order, current, visited, accumulated =>
    let remaining := deductStock (copyOrder order) (mapIndex centerStock current [])
    let cost := wrapInt (accumulated + roundTrip current)
    if mapLen remaining = 0 then some cost
    else
      let visited := visited.insert current true
      centers.foldl
        (fun min next =>
          if !(mapIndex visited next false) then
            lowerTo min (calculateCostFuel fuel remaining next (copyMap visited) cost)
          else min)
        (some maxInt)

/-- Fuel given to the search: one nested call per facility, and one more. -/
def searchFuel : Nat := centers.length + 1

/-- The function `calculateCost` run with the search fuel. -/
def calculateCost (order : Order) (current : String) (visited : Visited)
    (accumulated : Int) : Option Int :=
  calculateCostFuel searchFuel order current visited accumulated

/-- The search of `deliveryCostHandler`: `minCost` starts at `math.MaxInt` and
is lowered by the cost of every start in `centers`, each with a fresh empty
`visited` map and accumulated cost 0. -/
def minimumCost (order : Order) : Option Int :=
  centers.foldl
    (fun minCost start => lowerTo minCost (calculateCost order start ∅ 0))
    (some maxInt)

/-- Builds an order from a list of entries, later entries first. -/
def orderOf (entries : List (String × Int)) : Order :=
  entries.foldr (fun e o => o.insert e.1 e.2) ∅

/-- The products `facility` stocks: `centerStock[facility]`. -/
def stockOf (facility : String) : List String :=
  mapIndex centerStock facility []

/-- Every product key of `order` is stocked by some facility of `path`. -/
def Covers (order : Order) (path : List String) : Prop :=
  ∀ k, k ∈ order.keys → ∃ f, f ∈ path ∧ k ∈ stockOf f

instance (order : Order) (path : List String) : Decidable (Covers order path) := by
  unfold Covers
  infer_instance

/-- Exact sum of the round trip costs `2 * distance * costPerKm` of the
facilities of `path`. -/
def pathCost (path : List String) : Int :=
  (path.map (fun f => 2 * mapIndex centerDistances f 0 * costPerKm)).sum

/-- A non-empty sequence of distinct facilities of the catalog. -/
def ValidPath (path : List String) : Prop :=
  path ≠ [] ∧ path.Nodup ∧ ∀ f, f ∈ path → f ∈ centers

/-- The order left after `current` has supplied what it stocks: the value of
`remaining` in `calculateCost` when its length is tested. -/
def remainingOf (order : Order) (current : String) : Order :=
  deductStock (copyOrder order) (mapIndex centerStock current [])

/-- Number of facilities a call on `current` with `visited` may still recurse
into: those not marked once `current` is. -/
def unvisitedCount (visited : Visited) (current : String) : Nat :=
  (centers.filter (fun x => !(mapIndex (visited.insert current true) x false))).length

/-- The constant `math.MinInt` for the 64 bit `int`. -/
def minInt : Int := -9223372036854775808

/-- The arguments of one call of `calculateCost`. -/
structure Call where
  /-- The argument `order`. -/
  order : Order
  /-- The argument `current`. -/
  current : String
  /-- The argument `visited`. -/
  visited : Visited
  /-- The argument `accumulated`. -/
  accumulated : Int

/-- The recursive calls the body of `calculateCost` makes, in loop order: none
when `remaining` is empty, otherwise one for every `next` of `centers` that is
unmarked once `current` is marked, on `remaining`, a copy of the visited map
and the new cost. -/
def recursiveCalls (call : Call) : List Call :=
  let remaining := deductStock (copyOrder call.order) (mapIndex centerStock call.current [])
  let cost := wrapInt (call.accumulated + roundTrip call.current)
  if mapLen remaining = 0 then []
  else
    let visited := call.visited.insert call.current true
    (centers.filter (fun next => !(mapIndex visited next false))).map
      (fun next => Call.mk remaining next (copyMap visited) cost)

/-- The calls of `calculateCost` made, directly or through nested calls, while
`root` runs; `root` itself is one. -/
inductive ReachableFrom (root : Call) : Call → Prop
  | root : ReachableFrom root root
  | call (caller callee : Call) :
      ReachableFrom root caller → callee ∈ recursiveCalls caller → ReachableFrom root callee

/-- The call the handler makes for `start`: a fresh empty visited map and
accumulated cost 0. -/
def handlerCall (order : Order) (start : String) : Call :=
  Call.mk order start ∅ 0

/-- Round trip cost of `current` plus that of every facility still unmarked
once `current` is marked: the most a path through `current` can still add. -/
def openCost (visited : Visited) (current : String) : Int :=
  roundTrip current +
    ((centers.filter
      (fun x => !(mapIndex (visited.insert current true) x false))).map roundTrip).sum

/-- The function `calculateCost` with the loop `for _, next := range centers`
running over `facilities` in place of `centers`: the same body for another
iteration order of the facility list. -/
def calculateCostOver (facilities : List String) :
    Nat → Order → String → Visited → Int → Option Int
  | 0, _, _, _, _ => none
  | fuel + 1, order, current, visited, accumulated =>
    let remaining := deductStock (copyOrder order) (mapIndex centerStock current [])
    let cost := wrapInt (accumulated + roundTrip current)
    if mapLen remaining = 0 then some cost
    else
      let visited := visited.insert current true
      facilities.foldl
        (fun min next =>
          if !(mapIndex visited next false) then
            lowerTo min
              (calculateCostOver facilities fuel remaining next (copyMap visited) cost)
          else min)
        (some maxInt)

/-- The search of `deliveryCostHandler` with both loops over the facility
list, the one choosing the start and the one inside `calculateCost`, running
over `facilities` in place of `centers`. -/
def minimumCostOver (facilities : List String) (order : Order) : Option Int :=
  facilities.foldl
    (fun minCost start =>
      lowerTo minCost (calculateCostOver facilities searchFuel order start ∅ 0))
    (some maxInt)

/-- The search of `deliveryCostHandler` with the fuel of each `calculateCost`
call explicit. -/
def minimumCostFuel (fuel : Nat) (order : Order) : Option Int :=
  centers.foldl
    (fun minCost start => lowerTo minCost (calculateCostFuel fuel order start ∅ 0))
    (some maxInt)

/-- What the handler reads of a `*http.Request`: the method and the body. -/
structure Request where
  /-- The field `r.Method`. -/
  method : String
  /-- The bytes of `r.Body`. -/
  body : String

/-- The type `CostResponse`. -/
structure CostResponse where
  /-- The field `MinimumCost`, encoded as `minimum_cost`. -/
  MinimumCost : Int

/-- What the handler writes to the `http.ResponseWriter`. -/
inductive Response where
  /-- The call `http.Error(w, message, code)`. -/
  | error (message : String) (code : Nat)
  /-- The call `respondJSON(w, data)`, which writes no status code. -/
  | json (data : CostResponse)

/-- Status code of a response; one written without a code has status 200. -/
def Response.status : Response → Nat
  | Response.error _ code => code
  | Response.json _ => 200

/-- The constant `http.MethodPost`. -/
def methodPost : String := "POST"

/-- The constant `http.StatusMethodNotAllowed`. -/
def statusMethodNotAllowed : Nat := 405

/-- The constant `http.StatusBadRequest`. -/
def statusBadRequest : Nat := 400

/-- The function `deliveryCostHandler`. The JSON decoder of the standard
library is the parameter `decode`, giving the decoded order or `none` for an
error; `fuel` is the fuel of each `calculateCost` call, and a search that runs
out of fuel writes nothing. -/
def deliveryCostHandlerFuel (decode : String → Option Order) (fuel : Nat) (r : Request) :
    Option Response :=
  if r.method ≠ methodPost then
    some (Response.error "Only POST method is allowed" statusMethodNotAllowed)
  else
    match decode r.body with
    | none => some (Response.error "Invalid request body" statusBadRequest)
    | some order =>
      match minimumCostFuel fuel order with
      | none => none
      | some minCost => some (Response.json (CostResponse.mk minCost))

/-- The function `deliveryCostHandler` run with the search fuel. -/
def deliveryCostHandler (decode : String → Option Order) (r : Request) : Option Response :=
  deliveryCostHandlerFuel decode searchFuel r

/-- The maps allocated so far. A Go map value is a reference: here the index
of a map in the heap, so that writes through one reference are seen through
every copy of it. -/
structure Heap where
  /-- The allocated `Order` maps. -/
  orders : List Order
  /-- The allocated `map[string]bool` maps. -/
  visiteds : List Visited

/-- The order map a reference denotes. -/
def Heap.orderAt (h : Heap) (ref : Nat) : Order :=
  h.orders.getD ref ∅

/-- The visited map a reference denotes. -/
def Heap.visitedAt (h : Heap) (ref : Nat) : Visited :=
  h.visiteds.getD ref ∅

/-- A write to the order map behind `ref`. -/
def Heap.storeOrder (h : Heap) (ref : Nat) (m : Order) : Heap :=
  Heap.mk (h.orders.set ref m) h.visiteds

/-- A write to the visited map behind `ref`. -/
def Heap.storeVisited (h : Heap) (ref : Nat) (m : Visited) : Heap :=
  Heap.mk h.orders (h.visiteds.set ref m)

/-- The allocation `make(Order)`: a reference to a new empty order map. -/
def Heap.makeOrder (h : Heap) : Nat × Heap :=
  (h.orders.length, Heap.mk (h.orders ++ [∅]) h.visiteds)

/-- The allocation `make(map[string]bool)`: a reference to a new empty map. -/
def Heap.makeVisited (h : Heap) : Nat × Heap :=
  (h.visiteds.length, Heap.mk h.orders (h.visiteds ++ [∅]))

/-- The function `copyMap` on references: it allocates `newMap` and stores
every entry of `orig` in it. -/
def copyMapHeap (h : Heap) (orig : Nat) : Nat × Heap :=
  let newMap := h.makeVisited.1
  let h := h.makeVisited.2
  (newMap,
    (h.visitedAt orig).foldl
      (fun h k v => h.storeVisited newMap ((h.visitedAt newMap).insert k v)) h)

/-- The first two loops of `calculateCost` on references: `remaining` is
allocated, receives every entry of `order`, and loses every product of
`available` that is one of its keys. -/
def makeRemaining (h : Heap) (order : Nat) (available : List String) : Nat × Heap :=
  let remaining := h.makeOrder.1
  let h := h.makeOrder.2
  let h := (h.orderAt order).foldl
    (fun h k v => h.storeOrder remaining ((h.orderAt remaining).insert k v)) h
  (remaining,
    available.foldl
      (fun h prod =>
        if ((h.orderAt remaining).lookup prod).isSome then
          h.storeOrder remaining ((h.orderAt remaining).erase prod)
        else h)
      h)

/-- One iteration of the loop over `centers` in `calculateCost` on references,
the state being the running minimum and the heap; `recur` is the recursive
call. -/
def visitNext (recur : Heap → Nat → String → Nat → Int → Option (Int × Heap))
    (remaining visited : Nat) (cost : Int) (state : Option (Int × Heap)) (next : String) :
    Option (Int × Heap) :=
  match state with
  | none => none
  | some (min, h) =>
    if !(mapIndex (h.visitedAt visited) next false) then
      match recur (copyMapHeap h visited).2 remaining next (copyMapHeap h visited).1 cost with
      | none => none
      | some (subCost, h) => some (if subCost < min then subCost else min, h)
    else some (min, h)

/-- The function `calculateCost` on references: `order` and `visited` are
references into the heap, every write goes to the heap, and the final heap is
returned with the result. -/
def calculateCostHeap : Nat → Heap → Nat → String → Nat → Int → Option (Int × Heap)
  | 0, _, _, _, _, _ => none
  | fuel + 1, h, order, current, visited, accumulated =>
    let remaining := (makeRemaining h order (mapIndex centerStock current [])).1
    let h := (makeRemaining h order (mapIndex centerStock current [])).2
    let cost := wrapInt (accumulated + roundTrip current)
    if mapLen (h.orderAt remaining) = 0 then some (cost, h)
    else
      let h := h.storeVisited visited ((h.visitedAt visited).insert current true)
      centers.foldl (visitNext (calculateCostHeap fuel) remaining visited cost)
        (some (maxInt, h))

/-- The heap `after` keeps every map of `before` except possibly the visited
map behind `written`, and has lost no allocation. -/
def Heap.Preserves (before after : Heap) (written : Nat) : Prop :=
  before.orders.length ≤ after.orders.length ∧
  before.visiteds.length ≤ after.visiteds.length ∧
  (∀ i, i < before.orders.length → after.orderAt i = before.orderAt i) ∧
  (∀ j, j < before.visiteds.length → j ≠ written →
    after.visitedAt j = before.visitedAt j)

/-! ## Maps -/

theorem lookup_foldl_insert {V : Type} (l : List (Sigma (fun _ : String => V)))
    (hl : l.NodupKeys) (acc : GoMap V) (k : String) :
    (l.foldl (fun r a => r.insert a.1 a.2) acc).lookup k
      = (l.dlookup k).orElse (fun _ => acc.lookup k) := by
  induction l generalizing acc with
  | nil => simp
  | cons e l ih =>
    obtain ⟨a, b⟩ := e
    rw [List.nodupKeys_cons] at hl
    rw [List.foldl_cons, ih hl.2]
    by_cases hk : k = a
    · subst hk
      have hnone : List.dlookup k l = none := List.dlookup_eq_none.mpr hl.1
      simp [hnone, AList.lookup_insert]
    · have hk2 : k ≠ (⟨a, b⟩ : Sigma (fun _ : String => V)).1 := hk
      rw [List.dlookup_cons_ne l _ hk2, AList.lookup_insert_ne hk]

theorem lookup_copy {V : Type} (m : GoMap V) (k : String) :
    (AList.foldl (fun (r : GoMap V) k v => r.insert k v) ∅ m).lookup k = m.lookup k := by
  unfold AList.foldl
  rw [lookup_foldl_insert m.entries m.nodupKeys ∅ k]
  simp [AList.lookup]

theorem lookup_copyMap (v : Visited) (k : String) :
    (copyMap v).lookup k = v.lookup k :=
  lookup_copy v k

theorem mem_copyOrder (o : Order) (k : String) : k ∈ copyOrder o ↔ k ∈ o := by
  rw [← AList.lookup_isSome, ← AList.lookup_isSome]
  unfold copyOrder
  rw [lookup_copy]

theorem mem_deductStock (available : List String) (r : Order) (k : String) :
    k ∈ deductStock r available ↔ k ∈ r ∧ k ∉ available := by
  unfold deductStock
  induction available generalizing r with
  | nil => simp
  | cons p ps ih =>
    rw [List.foldl_cons, ih]
    by_cases hp : (r.lookup p).isSome
    · simp only [hp, if_true, AList.mem_erase, List.mem_cons, not_or]
      tauto
    · simp only [hp, List.mem_cons, not_or]
      have hpr : p ∉ r := fun h => hp (AList.lookup_isSome.mpr h)
      constructor
      · rintro ⟨h1, h2⟩
        exact ⟨h1, fun h => hpr (h ▸ h1), h2⟩
      · rintro ⟨h1, _, h2⟩
        exact ⟨h1, h2⟩

theorem mapLen_eq_zero {V : Type} (m : GoMap V) : mapLen m = 0 ↔ ∀ k, k ∉ m := by
  unfold mapLen
  rw [List.length_eq_zero]
  constructor
  · intro h k hk
    rw [AList.mem_keys, AList.keys, h] at hk
    simp at hk
  · intro h
    cases hm : m.entries with
    | nil => rfl
    | cons e l =>
      exfalso
      apply h e.1
      rw [AList.mem_keys, AList.keys, hm]
      simp

theorem mem_remainingOf (o : Order) (c k : String) :
    k ∈ remainingOf o c ↔ k ∈ o ∧ k ∉ stockOf c := by
  unfold remainingOf stockOf
  rw [mem_deductStock, mem_copyOrder]

theorem remainingOf_len (o : Order) (c : String) :
    mapLen (remainingOf o c) = 0 ↔ Covers o [c] := by
  rw [mapLen_eq_zero]
  constructor
  · intro h k hk
    refine ⟨c, List.mem_singleton.mpr rfl, ?_⟩
    by_contra hc
    exact h k ((mem_remainingOf o c k).mpr ⟨hk, hc⟩)
  · intro h k hk
    rw [mem_remainingOf] at hk
    obtain ⟨f, hf, hs⟩ := h k hk.1
    rw [List.mem_singleton] at hf
    subst hf
    exact hk.2 hs

theorem index_insert_true (v : Visited) (c x : String) :
    mapIndex (v.insert c true) x false = true ↔ x = c ∨ mapIndex v x false = true := by
  unfold mapIndex
  by_cases h : x = c
  · subst h
    simp [AList.lookup_insert]
  · rw [AList.lookup_insert_ne h]
    simp [h]

theorem index_copyMap (v : Visited) (x : String) :
    mapIndex (copyMap v) x false = mapIndex v x false := by
  unfold mapIndex
  rw [lookup_copyMap]

/-! ## Machine arithmetic -/

theorem wrapInt_of_range (x : Int) (h1 : -9223372036854775808 ≤ x)
    (h2 : x ≤ 9223372036854775807) : wrapInt x = x := by
  unfold wrapInt
  omega

theorem distance_cases (c : String) :
    (c = "C1" ∧ mapIndex centerDistances c 0 = 10) ∨
    (c = "C2" ∧ mapIndex centerDistances c 0 = 20) ∨
    (c = "C3" ∧ mapIndex centerDistances c 0 = 30) ∨
    (c ∉ centers ∧ mapIndex centerDistances c 0 = 0) := by
  by_cases h1 : c = "C1"
  · subst h1; left; exact ⟨rfl, by decide⟩
  by_cases h2 : c = "C2"
  · subst h2; right; left; exact ⟨rfl, by decide⟩
  by_cases h3 : c = "C3"
  · subst h3; right; right; left; exact ⟨rfl, by decide⟩
  right; right; right
  refine ⟨by simp [centers, h1, h2, h3], ?_⟩
  unfold mapIndex centerDistances
  rw [AList.lookup_insert_ne h1, AList.lookup_insert_ne h2, AList.lookup_insert_ne h3]
  rfl

theorem roundTrip_eq (c : String) :
    roundTrip c = 2 * mapIndex centerDistances c 0 * costPerKm := by
  unfold roundTrip costPerKm
  rcases distance_cases c with h | h | h | h <;> rw [h.2] <;> decide

theorem roundTrip_range (c : String) : 0 ≤ roundTrip c ∧ roundTrip c ≤ 120 := by
  rw [roundTrip_eq]
  unfold costPerKm
  rcases distance_cases c with h | h | h | h <;> rw [h.2] <;> decide

theorem pathCost_cons (c : String) (t : List String) :
    pathCost (c :: t) = roundTrip c + pathCost t := by
  rw [roundTrip_eq]
  simp [pathCost]

theorem pathCost_nonneg (t : List String) : 0 ≤ pathCost t := by
  induction t with
  | nil => simp [pathCost]
  | cons c t ih =>
    rw [pathCost_cons]
    have := roundTrip_range c
    omega

/-! ## The loop lowering a running minimum -/

theorem foldl_lowerTo (g : String → Bool) (sub : String → Option Int) (l : List String)
    (m0 : Int) (hsub : ∀ x, x ∈ l → g x = true → ∃ r, sub x = some r) :
    ∃ m, l.foldl (fun min next => if g next = true then lowerTo min (sub next) else min)
          (some m0) = some m ∧
      m ≤ m0 ∧
      (∀ x, x ∈ l → g x = true → ∀ r, sub x = some r → m ≤ r) ∧
      (m = m0 ∨ ∃ x, x ∈ l ∧ g x = true ∧ sub x = some m) := by
  induction l generalizing m0 with
  | nil => exact ⟨m0, rfl, le_refl _, by simp, Or.inl rfl⟩
  | cons y l ih =>
    have hl : ∀ x, x ∈ l → g x = true → ∃ r, sub x = some r :=
      fun x hx => hsub x (List.mem_cons_of_mem _ hx)
    rw [List.foldl_cons]
    by_cases hg : g y = true
    · obtain ⟨r, hr⟩ := hsub y (List.mem_cons_self _ _) hg
      simp only [hg, if_true, hr, lowerTo]
      by_cases hlt : r < m0
      · simp only [hlt, if_true]
        obtain ⟨m, hm, hle, hall, hex⟩ := ih r hl
        refine ⟨m, hm, by omega, ?_, ?_⟩
        · intro x hx hgx r' hr'
          rcases List.mem_cons.mp hx with h | h
          · subst h
            rw [hr] at hr'
            cases hr'
            exact hle
          · exact hall x h hgx r' hr'
        · rcases hex with h | ⟨x, hx, hgx, hsx⟩
          · right
            exact ⟨y, List.mem_cons_self _ _, hg, by rw [h]; exact hr⟩
          · right
            exact ⟨x, List.mem_cons_of_mem _ hx, hgx, hsx⟩
      · simp only [hlt, if_false]
        obtain ⟨m, hm, hle, hall, hex⟩ := ih m0 hl
        refine ⟨m, hm, hle, ?_, ?_⟩
        · intro x hx hgx r' hr'
          rcases List.mem_cons.mp hx with h | h
          · subst h
            rw [hr] at hr'
            cases hr'
            omega
          · exact hall x h hgx r' hr'
        · rcases hex with h | ⟨x, hx, hgx, hsx⟩
          · left; exact h
          · right
            exact ⟨x, List.mem_cons_of_mem _ hx, hgx, hsx⟩
    · simp only [hg]
      obtain ⟨m, hm, hle, hall, hex⟩ := ih m0 hl
      refine ⟨m, hm, hle, ?_, ?_⟩
      · intro x hx hgx r' hr'
        rcases List.mem_cons.mp hx with h | h
        · subst h
          exact absurd hgx hg
        · exact hall x h hgx r' hr'
      · rcases hex with h | ⟨x, hx, hgx, hsx⟩
        · left; exact h
        · right
          exact ⟨x, List.mem_cons_of_mem _ hx, hgx, hsx⟩

/-! ## One call of `calculateCost` -/

theorem calculateCostFuel_succ (n : Nat) (o : Order) (c : String) (v : Visited) (a : Int) :
    calculateCostFuel (n + 1) o c v a =
      if mapLen (remainingOf o c) = 0 then some (wrapInt (a + roundTrip c))
      else centers.foldl
        (fun min next =>
          if (!(mapIndex (v.insert c true) next false)) = true then
            lowerTo min (calculateCostFuel n (remainingOf o c) next
              (copyMap (v.insert c true)) (wrapInt (a + roundTrip c)))
          else min)
        (some maxInt) := rfl

theorem calculateCostFuel_done (n : Nat) (o : Order) (c : String) (v : Visited) (a : Int)
    (h : Covers o [c]) :
    calculateCostFuel (n + 1) o c v a = some (wrapInt (a + roundTrip c)) := by
  rw [calculateCostFuel_succ, if_pos ((remainingOf_len o c).mpr h)]

theorem calculateCostFuel_more (n : Nat) (o : Order) (c : String) (v : Visited) (a : Int)
    (h : ¬ Covers o [c]) :
    calculateCostFuel (n + 1) o c v a =
      centers.foldl
        (fun min next =>
          if (!(mapIndex (v.insert c true) next false)) = true then
            lowerTo min (calculateCostFuel n (remainingOf o c) next
              (copyMap (v.insert c true)) (wrapInt (a + roundTrip c)))
          else min)
        (some maxInt) := by
  rw [calculateCostFuel_succ, if_neg (fun h0 => h ((remainingOf_len o c).mp h0))]

/-- The result depends on the order through its key set only, and on the
visited map through its lookups only. -/
theorem calculateCostFuel_congr (n : Nat) (o1 o2 : Order) (c : String) (v1 v2 : Visited)
    (a : Int) (ho : ∀ k, k ∈ o1 ↔ k ∈ o2) (hv : ∀ k, v1.lookup k = v2.lookup k) :
    calculateCostFuel n o1 c v1 a = calculateCostFuel n o2 c v2 a := by
  induction n generalizing o1 o2 c v1 v2 a with
  | zero => rfl
  | succ n ih =>
    have hcov : Covers o1 [c] ↔ Covers o2 [c] := by
      unfold Covers
      constructor
      · intro h k hk
        exact h k ((ho k).mpr hk)
      · intro h k hk
        exact h k ((ho k).mp hk)
    by_cases h1 : Covers o1 [c]
    · rw [calculateCostFuel_done n o1 c v1 a h1,
        calculateCostFuel_done n o2 c v2 a (hcov.mp h1)]
    · rw [calculateCostFuel_more n o1 c v1 a h1,
        calculateCostFuel_more n o2 c v2 a (fun h => h1 (hcov.mpr h))]
      have hrem : ∀ k, k ∈ remainingOf o1 c ↔ k ∈ remainingOf o2 c := by
        intro k
        rw [mem_remainingOf, mem_remainingOf, ho k]
      have hins : ∀ k, (v1.insert c true).lookup k = (v2.insert c true).lookup k := by
        intro k
        by_cases hk : k = c
        · subst hk
          rw [AList.lookup_insert, AList.lookup_insert]
        · rw [AList.lookup_insert_ne hk, AList.lookup_insert_ne hk, hv k]
      have hcopy : ∀ k, (copyMap (v1.insert c true)).lookup k
          = (copyMap (v2.insert c true)).lookup k := by
        intro k
        rw [lookup_copyMap, lookup_copyMap, hins k]
      have hfun : (fun (min : Option Int) (next : String) =>
          if (!(mapIndex (v1.insert c true) next false)) = true then
            lowerTo min (calculateCostFuel n (remainingOf o1 c) next
              (copyMap (v1.insert c true)) (wrapInt (a + roundTrip c)))
          else min) =
        (fun (min : Option Int) (next : String) =>
          if (!(mapIndex (v2.insert c true) next false)) = true then
            lowerTo min (calculateCostFuel n (remainingOf o2 c) next
              (copyMap (v2.insert c true)) (wrapInt (a + roundTrip c)))
          else min) := by
        funext min next
        have hidx : mapIndex (v1.insert c true) next false
            = mapIndex (v2.insert c true) next false := by
          unfold mapIndex
          rw [hins next]
        rw [hidx, ih (remainingOf o1 c) (remainingOf o2 c) next _ _ _ hrem hcopy]
      rw [hfun]

/-! ## Termination -/

theorem bnot_eq_true (b : Bool) : (!b) = true ↔ b = false := by
  cases b <;> decide

theorem unvisitedCount_lt (v : Visited) (c next : String) (hn : next ∈ centers)
    (hv : mapIndex (v.insert c true) next false = false) :
    unvisitedCount (copyMap (v.insert c true)) next < unvisitedCount v c := by
  unfold unvisitedCount
  have hsub : ∀ x, (!(mapIndex ((copyMap (v.insert c true)).insert next true) x false)) = true →
      (!(mapIndex (v.insert c true) x false)) = true := by
    intro x hx
    cases h : mapIndex (v.insert c true) x false with
    | false => rfl
    | true =>
      have h2 : mapIndex ((copyMap (v.insert c true)).insert next true) x false = true := by
        rw [index_insert_true, index_copyMap]
        exact Or.inr h
      rw [h2] at hx
      exact absurd hx (by decide)
  have hfilter : centers.filter
      (fun x => !(mapIndex ((copyMap (v.insert c true)).insert next true) x false))
      = (centers.filter (fun x => !(mapIndex (v.insert c true) x false))).filter
          (fun x => !(mapIndex ((copyMap (v.insert c true)).insert next true) x false)) := by
    rw [List.filter_filter]
    apply List.filter_congr
    intro x _
    cases h : (!(mapIndex ((copyMap (v.insert c true)).insert next true) x false)) with
    | false => rfl
    | true => rw [hsub x h]; rfl
  rw [hfilter, List.length_filter_lt_length_iff_exists]
  refine ⟨next, ?_, ?_⟩
  · rw [List.mem_filter]
    exact ⟨hn, by rw [hv]; rfl⟩
  · have h2 : mapIndex ((copyMap (v.insert c true)).insert next true) next false = true := by
      rw [index_insert_true]
      exact Or.inl rfl
    rw [h2]
    decide

/-- A call returns as soon as its fuel exceeds the number of facilities it may
still recurse into. -/
theorem calculateCostFuel_isSome (n : Nat) (o : Order) (c : String) (v : Visited) (a : Int)
    (hn : unvisitedCount v c < n) : ∃ r, calculateCostFuel n o c v a = some r := by
  induction n generalizing o c v a with
  | zero => exact absurd hn (Nat.not_lt_zero _)
  | succ n ih =>
    by_cases h : Covers o [c]
    · exact ⟨_, calculateCostFuel_done n o c v a h⟩
    · rw [calculateCostFuel_more n o c v a h]
      obtain ⟨m, hm, _⟩ := foldl_lowerTo
        (fun next => !(mapIndex (v.insert c true) next false))
        (fun next => calculateCostFuel n (remainingOf o c) next
          (copyMap (v.insert c true)) (wrapInt (a + roundTrip c)))
        centers maxInt
        (by
          intro x hx hg
          apply ih
          have hv : mapIndex (v.insert c true) x false = false :=
            (bnot_eq_true _).mp hg
          have := unvisitedCount_lt v c x hx hv
          omega)
      exact ⟨m, hm⟩

theorem unvisitedCount_le (v : Visited) (c : String) : unvisitedCount v c ≤ centers.length := by
  unfold unvisitedCount
  exact List.length_filter_le _ _

theorem unvisitedCount_lt_of_mem (v : Visited) (c : String) (hc : c ∈ centers) :
    unvisitedCount v c < centers.length := by
  unfold unvisitedCount
  rw [List.length_filter_lt_length_iff_exists]
  refine ⟨c, hc, ?_⟩
  have h2 : mapIndex (v.insert c true) c false = true := by
    rw [index_insert_true]
    exact Or.inl rfl
  rw [h2]
  decide

/-! ## Paths explored by the search -/

theorem lowerTo_none_left (c : Option Int) : lowerTo none c = none := rfl

theorem lowerTo_none_right (m : Option Int) : lowerTo m none = none := by
  cases m <;> rfl

theorem lowerTo_some (m c : Int) :
    lowerTo (some m) (some c) = if c < m then some c else some m := rfl

theorem foldl_lowerTo_none (g : String → Bool) (sub : String → Option Int) (l : List String) :
    l.foldl (fun min next => if g next = true then lowerTo min (sub next) else min) none
      = none := by
  induction l with
  | nil => rfl
  | cons y l ih =>
    rw [List.foldl_cons]
    by_cases hg : g y = true
    · rw [if_pos hg, lowerTo_none_left]
      exact ih
    · rw [if_neg hg]
      exact ih

theorem foldl_lowerTo_source (g : String → Bool) (sub : String → Option Int) (l : List String)
    (m0 r : Int)
    (h : l.foldl (fun min next => if g next = true then lowerTo min (sub next) else min)
      (some m0) = some r) :
    r = m0 ∨ ∃ x, x ∈ l ∧ g x = true ∧ sub x = some r := by
  induction l generalizing m0 with
  | nil =>
    left
    simpa using h.symm
  | cons y l ih =>
    rw [List.foldl_cons] at h
    by_cases hg : g y = true
    · rw [if_pos hg] at h
      cases hs : sub y with
      | none =>
        rw [hs, lowerTo_none_right, foldl_lowerTo_none] at h
        exact absurd h (by simp)
      | some s =>
        rw [hs, lowerTo_some] at h
        by_cases hlt : s < m0
        · rw [if_pos hlt] at h
          rcases ih s h with h1 | ⟨x, hx, hgx, hsx⟩
          · right
            exact ⟨y, List.mem_cons_self _ _, hg, by rw [h1]; exact hs⟩
          · right
            exact ⟨x, List.mem_cons_of_mem _ hx, hgx, hsx⟩
        · rw [if_neg hlt] at h
          rcases ih m0 h with h1 | ⟨x, hx, hgx, hsx⟩
          · left; exact h1
          · right
            exact ⟨x, List.mem_cons_of_mem _ hx, hgx, hsx⟩
    · rw [if_neg hg] at h
      rcases ih m0 h with h1 | ⟨x, hx, hgx, hsx⟩
      · left; exact h1
      · right
        exact ⟨x, List.mem_cons_of_mem _ hx, hgx, hsx⟩

theorem covers_of_remaining (o : Order) (c : String) (t : List String)
    (h : Covers (remainingOf o c) t) : Covers o (c :: t) := by
  intro k hk
  by_cases hs : k ∈ stockOf c
  · exact ⟨c, List.mem_cons_self _ _, hs⟩
  · obtain ⟨f, hf, hfs⟩ := h k ((mem_remainingOf o c k).mpr ⟨hk, hs⟩)
    exact ⟨f, List.mem_cons_of_mem _ hf, hfs⟩

theorem covers_remaining (o : Order) (c : String) (t : List String)
    (h : Covers o (c :: t)) : Covers (remainingOf o c) t := by
  intro k hk0
  have hk := (mem_remainingOf o c k).mp hk0
  obtain ⟨f, hf, hfs⟩ := h k hk.1
  rcases List.mem_cons.mp hf with h1 | h1
  · subst h1
    exact absurd hfs hk.2
  · exact ⟨f, h1, hfs⟩

/-- A result other than the sentinel is the accumulated cost plus the cost of
a path of distinct unvisited facilities that covers the order. -/
theorem calculateCostFuel_sound (n : Nat) (o : Order) (c : String) (v : Visited) (a r : Int)
    (ha : 0 ≤ a) (hb : a + 120 * n ≤ maxInt)
    (h : calculateCostFuel n o c v a = some r) :
    r = maxInt ∨ ∃ t : List String, (c :: t).Nodup ∧ (∀ f, f ∈ t → f ∈ centers) ∧
      (∀ f, f ∈ t → mapIndex v f false = false) ∧ Covers o (c :: t) ∧
      r = a + pathCost (c :: t) := by
  induction n generalizing o c v a r with
  | zero => exact absurd h (by simp [calculateCostFuel])
  | succ n ih =>
    have hrt := roundTrip_range c
    unfold maxInt at hb
    push_cast at hb
    have hw : wrapInt (a + roundTrip c) = a + roundTrip c :=
      wrapInt_of_range _ (by omega) (by omega)
    by_cases hcov : Covers o [c]
    · rw [calculateCostFuel_done n o c v a hcov, hw] at h
      right
      refine ⟨[], by simp, by simp, by simp, hcov, ?_⟩
      rw [pathCost_cons]
      simp only [Option.some.injEq] at h
      simp [pathCost, ← h]
    · rw [calculateCostFuel_more n o c v a hcov, hw] at h
      rcases foldl_lowerTo_source
        (fun next => !(mapIndex (v.insert c true) next false))
        (fun next => calculateCostFuel n (remainingOf o c) next
          (copyMap (v.insert c true)) (a + roundTrip c)) centers maxInt r h with h1 | h1
      · left; exact h1
      · obtain ⟨x, hx, hgx, hsx⟩ := h1
        have hvx : mapIndex (v.insert c true) x false = false := (bnot_eq_true _).mp hgx
        have hxc : x ≠ c := by
          intro hxc
          have : mapIndex (v.insert c true) x false = true :=
            (index_insert_true v c x).mpr (Or.inl hxc)
          rw [hvx] at this
          exact absurd this (by decide)
        rcases ih (remainingOf o c) x (copyMap (v.insert c true)) (a + roundTrip c) r
          (by omega) (by unfold maxInt; omega) hsx with h2 | ⟨t, hnd, hcen, hvis, hcv, hr⟩
        · left; exact h2
        · right
          have hnot : ∀ f, f ∈ x :: t → f ≠ c ∧ mapIndex v f false = false := by
            intro f hf
            have hfv : mapIndex (v.insert c true) f false = false := by
              rcases List.mem_cons.mp hf with h3 | h3
              · rw [h3]; exact hvx
              · have := hvis f h3
                rw [index_copyMap] at this
                exact this
            constructor
            · intro hfc
              have : mapIndex (v.insert c true) f false = true :=
                (index_insert_true v c f).mpr (Or.inl hfc)
              rw [hfv] at this
              exact absurd this (by decide)
            · cases hvf : mapIndex v f false with
              | false => rfl
              | true =>
                have : mapIndex (v.insert c true) f false = true :=
                  (index_insert_true v c f).mpr (Or.inr hvf)
                rw [hfv] at this
                exact absurd this (by decide)
          refine ⟨x :: t, ?_, ?_, ?_, covers_of_remaining o c (x :: t) hcv, ?_⟩
          · rw [List.nodup_cons]
            exact ⟨fun hmem => (hnot c hmem).1 rfl, hnd⟩
          · intro f hf
            rcases List.mem_cons.mp hf with h3 | h3
            · rw [h3]; exact hx
            · exact hcen f h3
          · intro f hf
            exact (hnot f hf).2
          · rw [hr, pathCost_cons c (x :: t)]
            omega

/-- With enough fuel the result is at most the accumulated cost plus the cost
of any covering path of distinct unvisited facilities that starts at the
current one. -/
theorem calculateCostFuel_le_path (n : Nat) (o : Order) (c : String) (v : Visited) (a : Int)
    (t : List String) (ha : 0 ≤ a) (hb : a + 120 * n ≤ maxInt)
    (hn : unvisitedCount v c < n) (hnd : (c :: t).Nodup) (hcen : ∀ f, f ∈ t → f ∈ centers)
    (hvis : ∀ f, f ∈ t → mapIndex v f false = false) (hcov : Covers o (c :: t)) :
    ∃ r, calculateCostFuel n o c v a = some r ∧ r ≤ a + pathCost (c :: t) := by
  induction n generalizing o c v a t with
  | zero => exact absurd hn (Nat.not_lt_zero _)
  | succ n ih =>
    have hrt := roundTrip_range c
    unfold maxInt at hb
    push_cast at hb
    have hw : wrapInt (a + roundTrip c) = a + roundTrip c :=
      wrapInt_of_range _ (by omega) (by omega)
    by_cases hc1 : Covers o [c]
    · refine ⟨_, calculateCostFuel_done n o c v a hc1, ?_⟩
      rw [hw, pathCost_cons]
      have := pathCost_nonneg t
      omega
    · cases t with
      | nil => exact absurd hcov hc1
      | cons x t =>
        have hxc : x ≠ c := by
          intro hxc
          rw [List.nodup_cons] at hnd
          exact hnd.1 (hxc ▸ List.mem_cons_self _ _)
        have hxv : mapIndex (v.insert c true) x false = false := by
          cases hh : mapIndex (v.insert c true) x false with
          | false => rfl
          | true =>
            rcases (index_insert_true v c x).mp hh with h3 | h3
            · exact absurd h3 hxc
            · rw [hvis x (List.mem_cons_self _ _)] at h3
              exact absurd h3 (by decide)
        have hxcen : x ∈ centers := hcen x (List.mem_cons_self _ _)
        have hall : ∀ y, y ∈ centers →
            (fun next => !(mapIndex (v.insert c true) next false)) y = true →
            ∃ r, (fun next => calculateCostFuel n (remainingOf o c) next
              (copyMap (v.insert c true)) (wrapInt (a + roundTrip c))) y = some r := by
          intro y hy hg
          apply calculateCostFuel_isSome
          have := unvisitedCount_lt v c y hy ((bnot_eq_true _).mp hg)
          omega
        obtain ⟨m, hm, _, hle, _⟩ := foldl_lowerTo _ _ centers maxInt hall
        have hnd2 := (List.nodup_cons.mp hnd).2
        obtain ⟨r, hr, hrle⟩ := ih (remainingOf o c) x (copyMap (v.insert c true))
          (a + roundTrip c) t (by omega) (by unfold maxInt; omega)
          (by have := unvisitedCount_lt v c x hxcen hxv; omega) hnd2
          (fun f hf => hcen f (List.mem_cons_of_mem _ hf))
          (by
            intro f hf
            rw [index_copyMap]
            cases hh : mapIndex (v.insert c true) f false with
            | false => rfl
            | true =>
              rcases (index_insert_true v c f).mp hh with h3 | h3
              · rw [List.nodup_cons] at hnd
                exact absurd (h3 ▸ List.mem_cons_of_mem _ hf) hnd.1
              · rw [hvis f (List.mem_cons_of_mem _ hf)] at h3
                exact absurd h3 (by decide))
          (covers_remaining o c (x :: t) hcov)
        refine ⟨m, ?_, ?_⟩
        · rw [calculateCostFuel_more n o c v a hc1]
          exact hm
        · have h5 := hle x hxcen ((bnot_eq_true _).mpr hxv) r (by rw [hw]; exact hr)
          rw [pathCost_cons c (x :: t)]
          omega

/-! ## The search of the handler -/

theorem minimumCost_spec (o : Order) :
    ∃ m, minimumCost o = some m ∧ m ≤ maxInt ∧
      (∀ start, start ∈ centers → ∀ r, calculateCost o start ∅ 0 = some r → m ≤ r) ∧
      (m = maxInt ∨ ∃ start, start ∈ centers ∧ calculateCost o start ∅ 0 = some m) := by
  have hall : ∀ x, x ∈ centers → (fun _ : String => true) x = true →
      ∃ r, (fun start => calculateCost o start ∅ 0) x = some r := by
    intro x _ _
    apply calculateCostFuel_isSome
    have := unvisitedCount_le ∅ x
    unfold searchFuel
    omega
  obtain ⟨m, hm, hle, hmin, hsrc⟩ := foldl_lowerTo _ _ centers maxInt hall
  refine ⟨m, hm, hle, fun start hs r hr => hmin start hs rfl r hr, ?_⟩
  rcases hsrc with h | ⟨x, hx, _, hsx⟩
  · left; exact h
  · right; exact ⟨x, hx, hsx⟩

theorem searchFuel_bound : (0 : Int) + 120 * searchFuel ≤ maxInt := by
  decide

theorem minimumCost_le_path (o : Order) (s : List String) (hs : ValidPath s)
    (hc : Covers o s) : ∃ m, minimumCost o = some m ∧ m ≤ pathCost s := by
  obtain ⟨m, hm, _, hmin, _⟩ := minimumCost_spec o
  obtain ⟨hne, hnd, hcen⟩ := hs
  cases s with
  | nil => exact absurd rfl hne
  | cons c t =>
    obtain ⟨r, hr, hrle⟩ := calculateCostFuel_le_path searchFuel o c ∅ 0 t (le_refl _)
      searchFuel_bound
      (by have := unvisitedCount_le ∅ c; unfold searchFuel; omega) hnd
      (fun f hf => hcen f (List.mem_cons_of_mem _ hf))
      (fun f _ => rfl) hc
    have := hmin c (hcen c (List.mem_cons_self _ _)) r hr
    exact ⟨m, hm, by omega⟩

theorem minimumCost_attained (o : Order) (m : Int) (hm : minimumCost o = some m)
    (hne : m ≠ maxInt) : ∃ s, ValidPath s ∧ Covers o s ∧ pathCost s = m := by
  obtain ⟨m2, hm2, _, _, hsrc⟩ := minimumCost_spec o
  rw [hm] at hm2
  cases hm2
  rcases hsrc with h | ⟨c, hc, hcc⟩
  · exact absurd h hne
  · rcases calculateCostFuel_sound searchFuel o c ∅ 0 m (le_refl _) searchFuel_bound hcc
      with h | ⟨t, hnd, hcen, _, hcov, hr⟩
    · exact absurd h hne
    · refine ⟨c :: t, ⟨by simp, hnd, ?_⟩, hcov, by rw [hr]; simp⟩
      intro f hf
      rcases List.mem_cons.mp hf with h3 | h3
      · rw [h3]; exact hc
      · exact hcen f h3

theorem covers_centers (o : Order)
    (hstock : ∀ k, k ∈ o.keys → ∃ f, f ∈ centers ∧ k ∈ stockOf f) : Covers o centers :=
  hstock

theorem validPath_centers : ValidPath centers := by
  refine ⟨by decide, by decide, fun f hf => hf⟩

theorem pathCost_centers : pathCost centers = 240 := by
  decide

theorem minimumCost_congr (o1 o2 : Order)
    (h : ∀ c v a, calculateCost o1 c v a = calculateCost o2 c v a) :
    minimumCost o1 = minimumCost o2 := by
  unfold minimumCost
  have hfun : (fun (minCost : Option Int) (start : String) =>
      lowerTo minCost (calculateCost o1 start ∅ 0)) =
      (fun (minCost : Option Int) (start : String) =>
      lowerTo minCost (calculateCost o2 start ∅ 0)) := by
    funext minCost start
    rw [h start ∅ 0]
  rw [hfun]

theorem calculateCost_congr_keys (o1 o2 : Order) (h : ∀ k, k ∈ o1 ↔ k ∈ o2)
    (c : String) (v : Visited) (a : Int) :
    calculateCost o1 c v a = calculateCost o2 c v a :=
  calculateCostFuel_congr searchFuel o1 o2 c v v a h (fun _ => rfl)

theorem pathCost_single (f : String) :
    pathCost [f] = 2 * mapIndex centerDistances f 0 * costPerKm := by
  simp [pathCost]

theorem roundTrip_pair (g1 g2 : String) (h1 : g1 ∈ centers) (h2 : g2 ∈ centers)
    (hne : g1 ≠ g2) : 120 ≤ roundTrip g1 + roundTrip g2 := by
  rw [roundTrip_eq, roundTrip_eq]
  unfold costPerKm
  rcases distance_cases g1 with a | a | a | a <;>
    rcases distance_cases g2 with b | b | b | b <;>
    first
      | exact absurd h1 a.1
      | exact absurd h2 b.1
      | exact absurd (a.1.trans b.1.symm) hne
      | (rw [a.2, b.2]; decide)

theorem foldl_lowerTo_mono (g : String → Bool) (sub1 sub2 : String → Option Int)
    (l : List String) (hsub : ∀ x r, sub1 x = some r → sub2 x = some r)
    (init : Option Int) (r : Int)
    (h : l.foldl (fun min next => if g next = true then lowerTo min (sub1 next) else min)
      init = some r) :
    l.foldl (fun min next => if g next = true then lowerTo min (sub2 next) else min)
      init = some r := by
  induction l generalizing init with
  | nil => exact h
  | cons y l ih =>
    rw [List.foldl_cons] at h ⊢
    by_cases hg : g y = true
    · rw [if_pos hg] at h ⊢
      cases hs : sub1 y with
      | none =>
        rw [hs, lowerTo_none_right, foldl_lowerTo_none] at h
        exact absurd h (by simp)
      | some s =>
        rw [hsub y s hs]
        rw [hs] at h
        exact ih _ h
    · rw [if_neg hg] at h ⊢
      exact ih _ h

/-- More fuel never changes a result. -/
theorem calculateCostFuel_mono (n : Nat) (o : Order) (c : String) (v : Visited) (a r : Int)
    (h : calculateCostFuel n o c v a = some r) :
    calculateCostFuel (n + 1) o c v a = some r := by
  induction n generalizing o c v a r with
  | zero => exact absurd h (by simp [calculateCostFuel])
  | succ n ih =>
    by_cases hc : Covers o [c]
    · rw [calculateCostFuel_done n o c v a hc] at h
      rw [calculateCostFuel_done (n + 1) o c v a hc]
      exact h
    · rw [calculateCostFuel_more n o c v a hc] at h
      rw [calculateCostFuel_more (n + 1) o c v a hc]
      exact foldl_lowerTo_mono _ _ _ centers (fun x r hx => ih _ x _ _ r hx) _ r h

theorem calculateCostFuel_mono_le (n k : Nat) (o : Order) (c : String) (v : Visited)
    (a r : Int) (h : calculateCostFuel n o c v a = some r) :
    calculateCostFuel (n + k) o c v a = some r := by
  induction k with
  | zero => exact h
  | succ k ih => exact calculateCostFuel_mono (n + k) o c v a r ih

theorem order_eq_empty (order : Order) (h : mapLen order = 0) : order = ∅ := by
  apply AList.ext
  unfold mapLen at h
  rw [List.length_eq_zero] at h
  rw [h]
  rfl

/-! ## Claims -/

/-- C1: for every order whose product keys are each stocked by some facility
of the catalog, the handler's minimum is the least total round trip cost over
the non-empty sequences of distinct facilities whose combined stock contains
every product key: it is attained by such a sequence and no such sequence is
cheaper. -/
theorem minimumCost_is_global_minimum (order : Order)
    (hstock : ∀ k, k ∈ order.keys → ∃ f, f ∈ centers ∧ k ∈ stockOf f) :
    ∃ m, minimumCost order = some m ∧
      (∃ s, ValidPath s ∧ Covers order s ∧ pathCost s = m) ∧
      (∀ s, ValidPath s → Covers order s → m ≤ pathCost s) := by
  obtain ⟨m, hm, hle⟩ := minimumCost_le_path order centers validPath_centers
    (covers_centers order hstock)
  rw [pathCost_centers] at hle
  refine ⟨m, hm, minimumCost_attained order m hm (by unfold maxInt; omega), ?_⟩
  intro s hs hc
  obtain ⟨m2, hm2, hle2⟩ := minimumCost_le_path order s hs hc
  rw [hm] at hm2
  cases hm2
  exact hle2

theorem minimumCost_is_global_minimum_witness :
    (∀ k, k ∈ (orderOf [("A", 1), ("C", 1)]).keys → ∃ f, f ∈ centers ∧ k ∈ stockOf f) ∧
    ∃ m, minimumCost (orderOf [("A", 1), ("C", 1)]) = some m ∧
      (∃ s, ValidPath s ∧ Covers (orderOf [("A", 1), ("C", 1)]) s ∧ pathCost s = m) ∧
      (∀ s, ValidPath s → Covers (orderOf [("A", 1), ("C", 1)]) s → m ≤ pathCost s) :=
  ⟨by decide, minimumCost_is_global_minimum (orderOf [("A", 1), ("C", 1)]) (by decide)⟩

/-- C2 (counterexample): on the empty order the search does not return 0. -/
theorem minimumCost_empty_ne_zero :
    mapLen (∅ : Order) = 0 ∧ minimumCost (∅ : Order) ≠ some 0 := by
  decide

/-- C2 (amended): for every empty order the handler's minimum is 40, the round
trip to C1; every start returns its own round trip cost within a single call,
so exactly one facility is visited, not zero. -/
theorem minimumCost_empty (order : Order) (h : mapLen order = 0) :
    minimumCost order = some 40 ∧
    ∀ start, calculateCostFuel 1 order start ∅ 0
      = some (2 * mapIndex centerDistances start 0 * costPerKm) := by
  have he := order_eq_empty order h
  subst he
  refine ⟨by decide, ?_⟩
  intro start
  have hcov : Covers (∅ : Order) [start] := by
    intro k hk
    exact absurd hk (AList.not_mem_empty k)
  have hrt := roundTrip_range start
  rw [calculateCostFuel_done 0 ∅ start ∅ 0 hcov, ← roundTrip_eq,
    wrapInt_of_range _ (by omega) (by omega)]
  simp

theorem minimumCost_empty_witness :
    mapLen (∅ : Order) = 0 ∧
    (minimumCost (∅ : Order) = some 40 ∧
      ∀ start, calculateCostFuel 1 (∅ : Order) start ∅ 0
        = some (2 * mapIndex centerDistances start 0 * costPerKm)) :=
  ⟨by decide, minimumCost_empty ∅ (by decide)⟩

/-- C3 (counterexample): for the order {A:1, C:1} the computed minimum is not
80. -/
theorem minimumCost_AC_ne_80 :
    minimumCost (orderOf [("A", 1), ("C", 1)]) ≠ some 80 := by
  decide

/-- C3 (amended): for the order {A:1, C:1} the computed minimum is 120, the
cost 40 + 80 of the best two-facility path, C1 then C2. -/
theorem minimumCost_AC :
    minimumCost (orderOf [("A", 1), ("C", 1)]) = some 120 ∧
    Covers (orderOf [("A", 1), ("C", 1)]) ["C1", "C2"] ∧
    pathCost ["C1", "C2"] = 120 := by
  decide

/-- C4: for every order with a product key that no facility stocks, the
handler's minimum is exactly the sentinel `math.MaxInt`, and it is returned. -/
theorem minimumCost_unstocked (order : Order)
    (h : ∃ k, k ∈ order.keys ∧ ∀ f, f ∈ centers → k ∉ stockOf f) :
    minimumCost order = some maxInt := by
  obtain ⟨m, hm, _, _, _⟩ := minimumCost_spec order
  by_cases hmax : m = maxInt
  · rw [hm, hmax]
  · exfalso
    obtain ⟨s, hs, hcov, _⟩ := minimumCost_attained order m hm hmax
    obtain ⟨k, hk, hno⟩ := h
    obtain ⟨f, hf, hfs⟩ := hcov k hk
    exact hno f (hs.2.2 f hf) hfs

theorem minimumCost_unstocked_witness :
    (∃ k, k ∈ (orderOf [("A", 1), ("Z", 1)]).keys ∧ ∀ f, f ∈ centers → k ∉ stockOf f) ∧
    minimumCost (orderOf [("A", 1), ("Z", 1)]) = some maxInt :=
  ⟨by decide, minimumCost_unstocked (orderOf [("A", 1), ("Z", 1)]) (by decide)⟩

/-- C5: for every order all of whose product keys are stocked by one single
facility, the handler's minimum is the least round trip cost
`2 * distance * costPerKm` among the facilities that stock every key: it is the
cost of such a facility and no such facility is cheaper. -/
theorem minimumCost_single_facility (order : Order)
    (h : ∃ f, f ∈ centers ∧ Covers order [f]) :
    ∃ m, minimumCost order = some m ∧
      (∃ f, f ∈ centers ∧ Covers order [f] ∧
        m = 2 * mapIndex centerDistances f 0 * costPerKm) ∧
      (∀ f, f ∈ centers → Covers order [f] →
        m ≤ 2 * mapIndex centerDistances f 0 * costPerKm) := by
  have hsingle : ∀ f, f ∈ centers → ValidPath [f] := by
    intro f hf
    refine ⟨by simp, by simp, ?_⟩
    intro g hg
    rw [List.mem_singleton] at hg
    rw [hg]
    exact hf
  obtain ⟨f0, hf0, hc0⟩ := h
  obtain ⟨m, hm, hle⟩ := minimumCost_le_path order [f0] (hsingle f0 hf0) hc0
  have hall : ∀ f, f ∈ centers → Covers order [f] →
      m ≤ 2 * mapIndex centerDistances f 0 * costPerKm := by
    intro f hf hc
    obtain ⟨m2, hm2, hle2⟩ := minimumCost_le_path order [f] (hsingle f hf) hc
    rw [hm] at hm2
    cases hm2
    rw [← pathCost_single]
    exact hle2
  refine ⟨m, hm, ?_, hall⟩
  have hr0 := roundTrip_range f0
  rw [pathCost_single, ← roundTrip_eq] at hle
  obtain ⟨s, hs, hcov, hcost⟩ :=
    minimumCost_attained order m hm (by unfold maxInt; omega)
  obtain ⟨hne, hnd, hcen⟩ := hs
  cases s with
  | nil => exact absurd rfl hne
  | cons g1 t =>
    cases t with
    | nil =>
      exact ⟨g1, hcen g1 (List.mem_cons_self _ _), hcov, by rw [← hcost, pathCost_single]⟩
    | cons g2 t =>
      have hg1 : g1 ∈ centers := hcen g1 (List.mem_cons_self _ _)
      have hg2 : g2 ∈ centers :=
        hcen g2 (List.mem_cons_of_mem _ (List.mem_cons_self _ _))
      have hne12 : g1 ≠ g2 := by
        intro h12
        rw [List.nodup_cons] at hnd
        exact hnd.1 (h12 ▸ List.mem_cons_self _ _)
      have hpair := roundTrip_pair g1 g2 hg1 hg2 hne12
      have hrest := pathCost_nonneg t
      rw [pathCost_cons, pathCost_cons] at hcost
      refine ⟨f0, hf0, hc0, ?_⟩
      rw [← roundTrip_eq]
      omega

theorem minimumCost_single_facility_witness :
    (∃ f, f ∈ centers ∧ Covers (orderOf [("C", 2), ("I", 1)]) [f]) ∧
    ∃ m, minimumCost (orderOf [("C", 2), ("I", 1)]) = some m ∧
      (∃ f, f ∈ centers ∧ Covers (orderOf [("C", 2), ("I", 1)]) [f] ∧
        m = 2 * mapIndex centerDistances f 0 * costPerKm) ∧
      (∀ f, f ∈ centers → Covers (orderOf [("C", 2), ("I", 1)]) [f] →
        m ≤ 2 * mapIndex centerDistances f 0 * costPerKm) :=
  ⟨by decide, minimumCost_single_facility (orderOf [("C", 2), ("I", 1)]) (by decide)⟩

/-- C6: the handler's minimum is monotone in the key set of the order: when
every product key of `o1` is a key of `o2`, both minima are returned and the
one of `o1` is at most the one of `o2`. -/
theorem minimumCost_monotone (o1 o2 : Order) (h : ∀ k, k ∈ o1.keys → k ∈ o2.keys) :
    ∃ m1 m2, minimumCost o1 = some m1 ∧ minimumCost o2 = some m2 ∧ m1 ≤ m2 := by
  obtain ⟨m1, hm1, hle1, _, _⟩ := minimumCost_spec o1
  obtain ⟨m2, hm2, _, _, _⟩ := minimumCost_spec o2
  refine ⟨m1, m2, hm1, hm2, ?_⟩
  by_cases hmax : m2 = maxInt
  · rw [hmax]
    exact hle1
  · obtain ⟨s, hs, hcov, hcost⟩ := minimumCost_attained o2 m2 hm2 hmax
    obtain ⟨m, hm, hle⟩ := minimumCost_le_path o1 s hs (fun k hk => hcov k (h k hk))
    rw [hm1] at hm
    cases hm
    rw [← hcost]
    exact hle

theorem minimumCost_monotone_witness :
    (∀ k, k ∈ (orderOf [("A", 1)]).keys → k ∈ (orderOf [("A", 1), ("C", 1)]).keys) ∧
    ∃ m1 m2, minimumCost (orderOf [("A", 1)]) = some m1 ∧
      minimumCost (orderOf [("A", 1), ("C", 1)]) = some m2 ∧ m1 ≤ m2 :=
  ⟨by decide, minimumCost_monotone (orderOf [("A", 1)]) (orderOf [("A", 1), ("C", 1)])
    (by decide)⟩

/-- C7: the result depends only on which product keys are present, not on the
quantities: two orders with the same key set give the same result of
`calculateCost`, for every facility, visited map and accumulated cost, and the
same handler minimum. -/
theorem calculateCost_quantities_irrelevant (o1 o2 : Order)
    (h12 : ∀ k, k ∈ o1.keys → k ∈ o2.keys) (h21 : ∀ k, k ∈ o2.keys → k ∈ o1.keys) :
    (∀ current visited accumulated,
      calculateCost o1 current visited accumulated
        = calculateCost o2 current visited accumulated) ∧
    minimumCost o1 = minimumCost o2 := by
  have hk : ∀ k, k ∈ o1 ↔ k ∈ o2 := fun k => ⟨h12 k, h21 k⟩
  exact ⟨fun c v a => calculateCost_congr_keys o1 o2 hk c v a,
    minimumCost_congr o1 o2 (fun c v a => calculateCost_congr_keys o1 o2 hk c v a)⟩

theorem calculateCost_quantities_irrelevant_witness :
    (∀ k, k ∈ (orderOf [("A", 0), ("C", 7)]).keys → k ∈ (orderOf [("A", 1), ("C", 1)]).keys) ∧
    (∀ k, k ∈ (orderOf [("A", 1), ("C", 1)]).keys → k ∈ (orderOf [("A", 0), ("C", 7)]).keys) ∧
    (∀ current visited accumulated,
      calculateCost (orderOf [("A", 0), ("C", 7)]) current visited accumulated
        = calculateCost (orderOf [("A", 1), ("C", 1)]) current visited accumulated) ∧
    minimumCost (orderOf [("A", 0), ("C", 7)]) = minimumCost (orderOf [("A", 1), ("C", 1)]) :=
  ⟨by decide, by decide,
    calculateCost_quantities_irrelevant (orderOf [("A", 0), ("C", 7)])
      (orderOf [("A", 1), ("C", 1)]) (by decide) (by decide)⟩

/-- C8: the result is invariant under reordering of the entries of the order:
two orders whose entry sequences (with unique keys) are permutations of each
other give the same handler minimum and the same result of `calculateCost`. -/
theorem minimumCost_perm (o1 o2 : Order) (h : o1.entries.Perm o2.entries) :
    minimumCost o1 = minimumCost o2 ∧
    ∀ current visited accumulated,
      calculateCost o1 current visited accumulated
        = calculateCost o2 current visited accumulated := by
  have hk : ∀ k, k ∈ o1 ↔ k ∈ o2 := fun k => AList.mem_of_perm h
  exact ⟨minimumCost_congr o1 o2 (fun c v a => calculateCost_congr_keys o1 o2 hk c v a),
    fun c v a => calculateCost_congr_keys o1 o2 hk c v a⟩

theorem minimumCost_perm_witness :
    (orderOf [("A", 1), ("C", 2), ("D", 3)]).entries.Perm
      (orderOf [("D", 3), ("A", 1), ("C", 2)]).entries ∧
    (minimumCost (orderOf [("A", 1), ("C", 2), ("D", 3)])
      = minimumCost (orderOf [("D", 3), ("A", 1), ("C", 2)]) ∧
    ∀ current visited accumulated,
      calculateCost (orderOf [("A", 1), ("C", 2), ("D", 3)]) current visited accumulated
        = calculateCost (orderOf [("D", 3), ("A", 1), ("C", 2)]) current visited
            accumulated) :=
  ⟨by decide, minimumCost_perm _ _ (by decide)⟩

/-- C9: for the order {A:1} the computed minimum cost is 40, the round trip
`2 * 10 * 2` to C1. -/
theorem minimumCost_A :
    minimumCost (orderOf [("A", 1)]) = some 40 ∧
    calculateCost (orderOf [("A", 1)]) "C1" ∅ 0 = some (2 * 10 * 2) := by
  decide

/-- C10: `calculateCost` returns on every input, whatever the order stocks:
the search fuel is enough and more fuel never changes the result; every
recursive call is on a facility of the catalog other than the current one and
unmarked in the visited map, it receives a visited map in which the current
facility is marked and its own is not, and it strictly lowers the number of
facilities still open; when the current facility is one of the catalog, as many nested calls as
there are facilities (3) are enough. -/
theorem calculateCost_terminates (order : Order) (current : String) (visited : Visited)
    (accumulated : Int) :
    (∃ r, calculateCost order current visited accumulated = some r) ∧
    (∀ n, searchFuel ≤ n →
      calculateCostFuel n order current visited accumulated
        = calculateCost order current visited accumulated) ∧
    (∀ next, next ∈ centers → mapIndex (visited.insert current true) next false = false →
      next ≠ current ∧ mapIndex visited next false = false ∧
      mapIndex (copyMap (visited.insert current true)) current false = true ∧
      mapIndex (copyMap (visited.insert current true)) next false = false ∧
      unvisitedCount (copyMap (visited.insert current true)) next
        < unvisitedCount visited current) ∧
    (current ∈ centers →
      centers.length = 3 ∧
      calculateCostFuel centers.length order current visited accumulated
        = calculateCost order current visited accumulated) := by
  have hsome : ∃ r, calculateCost order current visited accumulated = some r := by
    apply calculateCostFuel_isSome
    have := unvisitedCount_le visited current
    unfold searchFuel
    omega
  refine ⟨hsome, ?_, ?_, ?_⟩
  · intro n hn
    obtain ⟨r, hr⟩ := hsome
    obtain ⟨k, hk⟩ := Nat.exists_eq_add_of_le hn
    rw [hr, hk]
    exact calculateCostFuel_mono_le searchFuel k order current visited accumulated r hr
  · intro next hnext hv
    refine ⟨?_, ?_, ?_, ?_, unvisitedCount_lt visited current next hnext hv⟩
    rotate_left 2
    · rw [index_copyMap]
      exact (index_insert_true visited current current).mpr (Or.inl rfl)
    · rw [index_copyMap]
      exact hv
    · intro hnc
      have : mapIndex (visited.insert current true) next false = true :=
        (index_insert_true visited current next).mpr (Or.inl hnc)
      rw [hv] at this
      exact absurd this (by decide)
    · cases hvn : mapIndex visited next false with
      | false => rfl
      | true =>
        have : mapIndex (visited.insert current true) next false = true :=
          (index_insert_true visited current next).mpr (Or.inr hvn)
        rw [hv] at this
        exact absurd this (by decide)
  · intro hc
    refine ⟨rfl, ?_⟩
    obtain ⟨r, hr⟩ := calculateCostFuel_isSome centers.length order current visited
      accumulated (unvisitedCount_lt_of_mem visited current hc)
    rw [hr]
    exact (calculateCostFuel_mono_le centers.length 1 order current visited accumulated r
      hr).symm

theorem calculateCost_terminates_witness :
    "C2" ∈ centers ∧
    (∃ r, calculateCostFuel centers.length (orderOf [("A", 1), ("Z", 1)]) "C2" ∅ 0
      = some r) :=
  ⟨by decide,
    (calculateCost_terminates (orderOf [("A", 1), ("Z", 1)]) "C2" ∅ 0).1.imp
      (fun _ hr =>
        ((calculateCost_terminates (orderOf [("A", 1), ("Z", 1)]) "C2" ∅ 0).2.2.2
          (by decide)).2.trans hr)⟩

/-! ## Results of single calls -/

theorem wrapInt_range (x : Int) : minInt ≤ wrapInt x ∧ wrapInt x ≤ maxInt := by
  unfold wrapInt minInt maxInt
  omega

theorem searchFuel_eq : searchFuel = 3 + 1 := rfl

/-- A result obtained with any fuel is the result of `calculateCost`. -/
theorem calculateCost_of_fuel (n : Nat) (o : Order) (c : String) (v : Visited) (a r : Int)
    (h : calculateCostFuel n o c v a = some r) : calculateCost o c v a = some r := by
  unfold calculateCost
  rcases Nat.le_total n searchFuel with hle | hle
  · obtain ⟨k, hk⟩ := Nat.exists_eq_add_of_le hle
    rw [hk]
    exact calculateCostFuel_mono_le n k o c v a r h
  · obtain ⟨r2, hr2⟩ := calculateCostFuel_isSome searchFuel o c v a
      (by have := unvisitedCount_le v c; unfold searchFuel; omega)
    obtain ⟨k, hk⟩ := Nat.exists_eq_add_of_le hle
    have h3 := calculateCostFuel_mono_le searchFuel k o c v a r2 hr2
    rw [← hk, h] at h3
    rw [hr2, ← Option.some.inj h3]

/-- Every result is a 64 bit integer. -/
theorem calculateCostFuel_range (n : Nat) (o : Order) (c : String) (v : Visited) (a r : Int)
    (h : calculateCostFuel n o c v a = some r) : minInt ≤ r ∧ r ≤ maxInt := by
  induction n generalizing o c v a r with
  | zero => exact absurd h (by simp [calculateCostFuel])
  | succ n ih =>
    by_cases hcov : Covers o [c]
    · rw [calculateCostFuel_done n o c v a hcov] at h
      rw [← Option.some.inj h]
      exact wrapInt_range _
    · rw [calculateCostFuel_more n o c v a hcov] at h
      rcases foldl_lowerTo_source _ _ centers maxInt r h with h1 | ⟨x, _, _, hsx⟩
      · rw [h1]
        exact ⟨by decide, le_refl _⟩
      · exact ih _ x _ _ r hsx

theorem covers_single_iff (o : Order) (c : String) :
    Covers o [c] ↔ ∀ k, k ∈ o.keys → k ∈ stockOf c := by
  unfold Covers
  constructor
  · intro h k hk
    obtain ⟨f, hf, hs⟩ := h k hk
    rw [List.mem_singleton] at hf
    rw [← hf]
    exact hs
  · intro h k hk
    exact ⟨c, List.mem_singleton.mpr rfl, h k hk⟩

theorem index_insert_false (v : Visited) (c x : String) :
    mapIndex (v.insert c true) x false = false ↔ x ≠ c ∧ mapIndex v x false = false := by
  constructor
  · intro h
    constructor
    · intro hxc
      have := (index_insert_true v c x).mpr (Or.inl hxc)
      rw [h] at this
      exact absurd this (by decide)
    · cases hv : mapIndex v x false with
      | false => rfl
      | true =>
        have := (index_insert_true v c x).mpr (Or.inr hv)
        rw [h] at this
        exact absurd this (by decide)
  · rintro ⟨h1, h2⟩
    cases hv : mapIndex (v.insert c true) x false with
    | false => rfl
    | true =>
      rcases (index_insert_true v c x).mp hv with h3 | h3
      · exact absurd h3 h1
      · rw [h2] at h3
        exact absurd h3 (by decide)

/-! ## Claims on single calls -/

/-- C12: terminal condition. When the stock of the current facility contains
every product key of the order, `calculateCost` returns the Go sum
`accumulated + 2*distance*costPerKm`, for every visited map; a single call is
enough, so it does not recurse; the product is exact, and the sum is the exact
integer sum whenever that fits the 64 bit `int`. -/
theorem calculateCost_terminal (order : Order) (current : String) (visited : Visited)
    (accumulated : Int) (h : ∀ k, k ∈ order.keys → k ∈ stockOf current) :
    calculateCost order current visited accumulated
      = some (wrapInt (accumulated + roundTrip current)) ∧
    calculateCostFuel 1 order current visited accumulated
      = some (wrapInt (accumulated + roundTrip current)) ∧
    recursiveCalls (Call.mk order current visited accumulated) = [] ∧
    roundTrip current = 2 * mapIndex centerDistances current 0 * costPerKm ∧
    (minInt ≤ accumulated + 2 * mapIndex centerDistances current 0 * costPerKm →
      accumulated + 2 * mapIndex centerDistances current 0 * costPerKm ≤ maxInt →
      calculateCost order current visited accumulated
        = some (accumulated + 2 * mapIndex centerDistances current 0 * costPerKm)) := by
  have hcov : Covers order [current] := (covers_single_iff order current).mpr h
  have h1 := calculateCostFuel_done 0 order current visited accumulated hcov
  have h4 := calculateCost_of_fuel 1 order current visited accumulated _ h1
  refine ⟨h4, h1, ?_, roundTrip_eq current, ?_⟩
  · have hlen := (remainingOf_len order current).mpr hcov
    unfold remainingOf at hlen
    simp only [recursiveCalls, hlen, if_true]
  · intro hlo hhi
    rw [h4, ← roundTrip_eq]
    rw [← roundTrip_eq] at hlo hhi
    unfold minInt at hlo
    unfold maxInt at hhi
    rw [wrapInt_of_range _ hlo hhi]

theorem calculateCost_terminal_witness :
    (∀ k, k ∈ (orderOf [("C", 1), ("I", 4)]).keys → k ∈ stockOf "C2") ∧
    calculateCost (orderOf [("C", 1), ("I", 4)]) "C2" ((∅ : Visited).insert "C3" true) 120
      = some (wrapInt (120 + roundTrip "C2")) :=
  ⟨by decide,
    (calculateCost_terminal (orderOf [("C", 1), ("I", 4)]) "C2"
      ((∅ : Visited).insert "C3" true) 120 (by decide)).1⟩

/-- C13: recursive step and dead end. When the stock of the current facility
does not contain every product key of the order, `calculateCost` returns the
least of the results of `calculateCost` on the order without the products of
the current facility, the visited map with the current facility marked and the
Go sum `accumulated + 2*distance*costPerKm`, taken over the facilities of the
catalog that are unmarked and differ from the current one; when there is no
such facility it returns `math.MaxInt`. -/
theorem calculateCost_recursive_step (order : Order) (current : String) (visited : Visited)
    (accumulated : Int) (h : ∃ k, k ∈ order.keys ∧ k ∉ stockOf current) :
    ∃ r, calculateCost order current visited accumulated = some r ∧
      (∀ next, next ∈ centers → next ≠ current → mapIndex visited next false = false →
        ∃ s, calculateCost (remainingOf order current) next (visited.insert current true)
            (wrapInt (accumulated + roundTrip current)) = some s ∧ r ≤ s) ∧
      ((∃ next, next ∈ centers ∧ next ≠ current ∧ mapIndex visited next false = false) →
        ∃ next, next ∈ centers ∧ next ≠ current ∧ mapIndex visited next false = false ∧
          calculateCost (remainingOf order current) next (visited.insert current true)
            (wrapInt (accumulated + roundTrip current)) = some r) ∧
      ((∀ next, next ∈ centers → next = current ∨ mapIndex visited next false = true) →
        r = maxInt) ∧
      (∀ k, k ∈ (remainingOf order current).keys ↔
        k ∈ order.keys ∧ k ∉ stockOf current) := by
  have hcov : ¬ Covers order [current] := by
    intro hc
    obtain ⟨k, hk, hns⟩ := h
    exact hns ((covers_single_iff order current).mp hc k hk)
  have hsub : ∀ x, x ∈ centers →
      (fun next => !(mapIndex (visited.insert current true) next false)) x = true →
      ∃ r, (fun next => calculateCostFuel 3 (remainingOf order current) next
        (copyMap (visited.insert current true))
        (wrapInt (accumulated + roundTrip current))) x = some r := by
    intro x hx hg
    apply calculateCostFuel_isSome
    have h1 := unvisitedCount_lt visited current x hx ((bnot_eq_true _).mp hg)
    have h2 := unvisitedCount_le visited current
    have h3 : centers.length = 3 := rfl
    omega
  obtain ⟨m, hm, _, hmin, hsrc⟩ := foldl_lowerTo _ _ centers maxInt hsub
  have hfuel : calculateCostFuel (3 + 1) order current visited accumulated = some m := by
    rw [calculateCostFuel_more 3 order current visited accumulated hcov]
    exact hm
  have hsame : ∀ next s, calculateCostFuel 3 (remainingOf order current) next
      (copyMap (visited.insert current true))
      (wrapInt (accumulated + roundTrip current)) = some s →
      calculateCost (remainingOf order current) next (visited.insert current true)
        (wrapInt (accumulated + roundTrip current)) = some s := by
    intro next s hs
    rw [calculateCostFuel_congr 3 _ (remainingOf order current) next _
      (visited.insert current true) _ (fun _ => Iff.rfl)
      (fun k => lookup_copyMap (visited.insert current true) k)] at hs
    exact calculateCost_of_fuel 3 _ _ _ _ s hs
  have hall : ∀ next, next ∈ centers → next ≠ current → mapIndex visited next false = false →
      ∃ s, calculateCost (remainingOf order current) next (visited.insert current true)
          (wrapInt (accumulated + roundTrip current)) = some s ∧ m ≤ s := by
    intro next hn hne hv
    have hg : (fun next => !(mapIndex (visited.insert current true) next false)) next
        = true :=
      (bnot_eq_true _).mpr ((index_insert_false visited current next).mpr ⟨hne, hv⟩)
    obtain ⟨s, hs⟩ := hsub next hn hg
    exact ⟨s, hsame next s hs, hmin next hn hg s hs⟩
  refine ⟨m, calculateCost_of_fuel (3 + 1) _ _ _ _ m hfuel, hall, ?_, ?_, ?_⟩
  · rintro ⟨next, hn, hne, hv⟩
    rcases hsrc with h1 | ⟨x, hx, hgx, hsx⟩
    · have hg : (fun next => !(mapIndex (visited.insert current true) next false)) next
          = true :=
        (bnot_eq_true _).mpr ((index_insert_false visited current next).mpr ⟨hne, hv⟩)
      obtain ⟨s, hs⟩ := hsub next hn hg
      have hle := hmin next hn hg s hs
      have hrange := calculateCostFuel_range 3 _ _ _ _ s hs
      have hsm : s = m := by
        rw [h1] at hle ⊢
        omega
      rw [hsm] at hs
      exact ⟨next, hn, hne, hv, hsame next m hs⟩
    · have hx2 := (index_insert_false visited current x).mp ((bnot_eq_true _).mp hgx)
      exact ⟨x, hx, hx2.1, hx2.2, hsame x m hsx⟩
  · intro hnone
    rcases hsrc with h1 | ⟨x, hx, hgx, _⟩
    · exact h1
    · have hx2 := (index_insert_false visited current x).mp ((bnot_eq_true _).mp hgx)
      rcases hnone x hx with h3 | h3
      · exact absurd h3 hx2.1
      · rw [hx2.2] at h3
        exact absurd h3 (by decide)
  · intro k
    exact mem_remainingOf order current k

theorem calculateCost_recursive_step_witness :
    (∃ k, k ∈ (orderOf [("A", 1), ("C", 1)]).keys ∧ k ∉ stockOf "C1") ∧
    ∃ r, calculateCost (orderOf [("A", 1), ("C", 1)]) "C1" ∅ 0 = some r ∧
      ((∀ next, next ∈ centers → next = "C1" ∨ mapIndex (∅ : Visited) next false = true) →
        r = maxInt) :=
  ⟨by decide,
    (calculateCost_recursive_step (orderOf [("A", 1), ("C", 1)]) "C1" ∅ 0
      (by decide)).imp (fun _ hr => ⟨hr.1, hr.2.2.2.1⟩)⟩

/-! ## Accumulated cost and overflow -/

theorem roundTrip_ge_of_mem (c : String) (hc : c ∈ centers) : 40 ≤ roundTrip c := by
  rw [roundTrip_eq]
  unfold costPerKm
  rcases distance_cases c with h | h | h | h
  · rw [h.2]; decide
  · rw [h.2]; decide
  · rw [h.2]; decide
  · exact absurd hc h.1

theorem sum_filter_nonneg (l : List String) (p : String → Bool) :
    0 ≤ ((l.filter p).map roundTrip).sum := by
  induction l with
  | nil => simp
  | cons y l ih =>
    have hy := roundTrip_range y
    by_cases hp : p y = true
    · rw [List.filter_cons_of_pos hp, List.map_cons, List.sum_cons]
      omega
    · rw [List.filter_cons_of_neg hp]
      exact ih

theorem sum_filter_le_sum (l : List String) (p : String → Bool) :
    ((l.filter p).map roundTrip).sum ≤ (l.map roundTrip).sum := by
  induction l with
  | nil => simp
  | cons y l ih =>
    have hy := roundTrip_range y
    rw [List.map_cons, List.sum_cons]
    by_cases hp : p y = true
    · rw [List.filter_cons_of_pos hp, List.map_cons, List.sum_cons]
      omega
    · rw [List.filter_cons_of_neg hp]
      omega

theorem sum_filter_mono (l : List String) (p q : String → Bool)
    (hqp : ∀ y, q y = true → p y = true) :
    ((l.filter q).map roundTrip).sum ≤ ((l.filter p).map roundTrip).sum := by
  induction l with
  | nil => simp
  | cons y l ih =>
    have hy := roundTrip_range y
    by_cases hq : q y = true
    · rw [List.filter_cons_of_pos hq, List.filter_cons_of_pos (hqp y hq), List.map_cons,
        List.sum_cons, List.map_cons, List.sum_cons]
      omega
    · rw [List.filter_cons_of_neg hq]
      by_cases hp : p y = true
      · rw [List.filter_cons_of_pos hp, List.map_cons, List.sum_cons]
        omega
      · rw [List.filter_cons_of_neg hp]
        exact ih

/-- Removing a chosen element from the filter frees its round trip cost. -/
theorem sum_filter_remove (l : List String) (p q : String → Bool) (x : String)
    (hx : x ∈ l) (hpx : p x = true) (hqx : q x = false)
    (hqp : ∀ y, q y = true → p y = true) :
    roundTrip x + ((l.filter q).map roundTrip).sum ≤ ((l.filter p).map roundTrip).sum := by
  induction l with
  | nil => exact absurd hx (List.not_mem_nil _)
  | cons y l ih =>
    have hy := roundTrip_range y
    by_cases hyx : y = x
    · subst hyx
      have hq : ¬ q y = true := by rw [hqx]; decide
      rw [List.filter_cons_of_pos hpx, List.filter_cons_of_neg hq, List.map_cons,
        List.sum_cons]
      have := sum_filter_mono l p q hqp
      omega
    · have hxl : x ∈ l := by
        rcases List.mem_cons.mp hx with h | h
        · exact absurd h.symm hyx
        · exact h
      have h2 := ih hxl
      by_cases hq : q y = true
      · rw [List.filter_cons_of_pos hq, List.filter_cons_of_pos (hqp y hq), List.map_cons,
          List.sum_cons, List.map_cons, List.sum_cons]
        omega
      · rw [List.filter_cons_of_neg hq]
        by_cases hp : p y = true
        · rw [List.filter_cons_of_pos hp, List.map_cons, List.sum_cons]
          omega
        · rw [List.filter_cons_of_neg hp]
          exact h2

theorem sum_centers : (centers.map roundTrip).sum = 240 := by
  decide

theorem openCost_ge (v : Visited) (c : String) : roundTrip c ≤ openCost v c := by
  unfold openCost
  have := sum_filter_nonneg centers
    (fun x => !(mapIndex (v.insert c true) x false))
  omega

theorem openCost_le (v : Visited) (c : String) : openCost v c ≤ 240 := by
  unfold openCost
  by_cases hc : c ∈ centers
  · have h := sum_filter_remove centers (fun _ => true)
      (fun x => !(mapIndex (v.insert c true) x false)) c hc rfl
      (by
        have : mapIndex (v.insert c true) c false = true :=
          (index_insert_true v c c).mpr (Or.inl rfl)
        simp [this])
      (fun _ _ => rfl)
    have h2 := sum_filter_le_sum centers (fun _ => true)
    rw [sum_centers] at h2
    omega
  · have h0 : roundTrip c = 0 := by
      rw [roundTrip_eq]
      rcases distance_cases c with h | h | h | h
      · exact absurd (by rw [h.1]; decide) hc
      · exact absurd (by rw [h.1]; decide) hc
      · exact absurd (by rw [h.1]; decide) hc
      · rw [h.2]; decide
    have h2 := sum_filter_le_sum centers
      (fun x => !(mapIndex (v.insert c true) x false))
    rw [sum_centers] at h2
    omega

/-- A recursive call leaves the sum of accumulated and open cost no larger. -/
theorem openCost_step (v : Visited) (c next : String) (hn : next ∈ centers)
    (hv : mapIndex (v.insert c true) next false = false) :
    roundTrip c + openCost (copyMap (v.insert c true)) next ≤ openCost v c := by
  unfold openCost
  have h := sum_filter_remove centers
    (fun x => !(mapIndex (v.insert c true) x false))
    (fun x => !(mapIndex ((copyMap (v.insert c true)).insert next true) x false))
    next hn (by simp [hv])
    (by
      have : mapIndex ((copyMap (v.insert c true)).insert next true) next false = true :=
        (index_insert_true _ next next).mpr (Or.inl rfl)
      simp [this])
    (by
      intro y hy
      have hy2 := (index_insert_false _ next y).mp ((bnot_eq_true _).mp hy)
      rw [index_copyMap] at hy2
      exact (bnot_eq_true _).mpr hy2.2)
  omega

/-- Within the 64 bit range every result is the sentinel or lies between the
cost of the current step and the accumulated cost plus the open cost. -/
theorem calculateCostFuel_bounds (n : Nat) (o : Order) (c : String) (v : Visited) (a r : Int)
    (hlo : minInt ≤ a) (hhi : a + openCost v c ≤ maxInt)
    (h : calculateCostFuel n o c v a = some r) :
    a + roundTrip c ≤ r ∧ (r = maxInt ∨ r ≤ a + openCost v c) := by
  induction n generalizing o c v a r with
  | zero => exact absurd h (by simp [calculateCostFuel])
  | succ n ih =>
    have hrt := roundTrip_range c
    have hoc := openCost_ge v c
    unfold minInt at hlo
    unfold maxInt at hhi
    have hw : wrapInt (a + roundTrip c) = a + roundTrip c :=
      wrapInt_of_range _ (by omega) (by omega)
    by_cases hcov : Covers o [c]
    · rw [calculateCostFuel_done n o c v a hcov, hw] at h
      have := Option.some.inj h
      constructor
      · omega
      · right; omega
    · rw [calculateCostFuel_more n o c v a hcov, hw] at h
      rcases foldl_lowerTo_source _ _ centers maxInt r h with h1 | ⟨x, hx, hgx, hsx⟩
      · rw [h1]
        unfold maxInt
        constructor
        · omega
        · left; rfl
      · have hvx := (bnot_eq_true _).mp hgx
        have hstep := openCost_step v c x hx hvx
        have hrx := roundTrip_range x
        have h2 := ih (remainingOf o c) x (copyMap (v.insert c true)) (a + roundTrip c) r
          (by unfold minInt; omega) (by unfold maxInt; omega) hsx
        constructor
        · omega
        · rcases h2.2 with h3 | h3
          · left; exact h3
          · right; omega

/-! ## The calls made while a call runs -/

theorem mem_recursiveCalls (call callee : Call) :
    callee ∈ recursiveCalls call ↔
      ¬ Covers call.order [call.current] ∧ callee.current ∈ centers ∧
      mapIndex (call.visited.insert call.current true) callee.current false = false ∧
      callee = Call.mk (remainingOf call.order call.current) callee.current
        (copyMap (call.visited.insert call.current true))
        (wrapInt (call.accumulated + roundTrip call.current)) := by
  by_cases hcov : Covers call.order [call.current]
  · have hlen := (remainingOf_len call.order call.current).mpr hcov
    unfold remainingOf at hlen
    simp only [recursiveCalls, hlen, if_true, List.not_mem_nil, false_iff]
    intro h
    exact h.1 hcov
  · have hlen : ¬ mapLen (deductStock (copyOrder call.order)
        (mapIndex centerStock call.current [])) = 0 :=
      fun h0 => hcov ((remainingOf_len call.order call.current).mp h0)
    simp only [recursiveCalls, hlen, if_false, List.mem_map, List.mem_filter]
    constructor
    · rintro ⟨next, ⟨hn, hg⟩, rfl⟩
      exact ⟨hcov, hn, (bnot_eq_true _).mp hg, rfl⟩
    · rintro ⟨_, hn, hv, heq⟩
      exact ⟨callee.current, ⟨hn, (bnot_eq_true _).mpr hv⟩, heq.symm⟩

theorem foldl_filter_map (g : String → Bool) (f : String → Call) (run : Call → Option Int)
    (l : List String) (init : Option Int) :
    ((l.filter g).map f).foldl (fun min callee => lowerTo min (run callee)) init
      = l.foldl (fun min next => if g next = true then lowerTo min (run (f next)) else min)
          init := by
  induction l generalizing init with
  | nil => rfl
  | cons y l ih =>
    by_cases hg : g y = true
    · rw [List.filter_cons_of_pos hg, List.map_cons, List.foldl_cons, List.foldl_cons,
        if_pos hg]
      exact ih _
    · rw [List.filter_cons_of_neg hg, List.foldl_cons, if_neg hg]
      exact ih _

/-- The loop of `calculateCost` lowers the minimum by the results of exactly
the calls listed by `recursiveCalls`, in that order. -/
theorem calculateCostFuel_recursiveCalls (n : Nat) (call : Call)
    (h : ¬ Covers call.order [call.current]) :
    calculateCostFuel (n + 1) call.order call.current call.visited call.accumulated =
      (recursiveCalls call).foldl
        (fun min callee => lowerTo min
          (calculateCostFuel n callee.order callee.current callee.visited callee.accumulated))
        (some maxInt) := by
  have hlen : ¬ mapLen (deductStock (copyOrder call.order)
      (mapIndex centerStock call.current [])) = 0 :=
    fun h0 => h ((remainingOf_len call.order call.current).mp h0)
  rw [calculateCostFuel_more n _ _ _ _ h]
  simp only [recursiveCalls, hlen, if_false]
  rw [foldl_filter_map (fun next => !(mapIndex (call.visited.insert call.current true) next false))
    (fun next => Call.mk (deductStock (copyOrder call.order)
      (mapIndex centerStock call.current [])) next
      (copyMap (call.visited.insert call.current true))
      (wrapInt (call.accumulated + roundTrip call.current)))
    (fun callee => calculateCostFuel n callee.order callee.current callee.visited
      callee.accumulated)]
  rfl

/-- Along the calls reachable from `root` the accumulated cost never falls
below that of `root`, and accumulated plus open cost never exceeds a bound that
holds for `root`. -/
theorem reachable_bounds (root call : Call) (bound : Int) (hlo : minInt ≤ root.accumulated)
    (hb : root.accumulated + openCost root.visited root.current ≤ bound)
    (hmax : bound ≤ maxInt) (h : ReachableFrom root call) :
    root.accumulated ≤ call.accumulated ∧
      call.accumulated + openCost call.visited call.current ≤ bound := by
  induction h with
  | root => exact ⟨le_refl _, hb⟩
  | call caller callee _ hmem ih =>
    obtain ⟨_, hn, hv, heq⟩ := (mem_recursiveCalls caller callee).mp hmem
    have hrt := roundTrip_range caller.current
    have hoc := openCost_ge caller.visited caller.current
    have hstep := openCost_step caller.visited caller.current callee.current hn hv
    unfold minInt at hlo
    unfold maxInt at hmax
    have hw : wrapInt (caller.accumulated + roundTrip caller.current)
        = caller.accumulated + roundTrip caller.current :=
      wrapInt_of_range _ (by omega) (by omega)
    have hacc : callee.accumulated = caller.accumulated + roundTrip caller.current := by
      rw [heq, hw]
    have hvis : callee.visited = copyMap (caller.visited.insert caller.current true) := by
      rw [heq]
    rw [hacc, hvis]
    constructor
    · omega
    · omega

theorem reachable_current (order : Order) (start : String) (hs : start ∈ centers)
    (call : Call) (h : ReachableFrom (handlerCall order start) call) :
    call.current ∈ centers := by
  induction h with
  | root => exact hs
  | call caller callee _ hmem _ => exact ((mem_recursiveCalls caller callee).mp hmem).2.1

/-- Two calls that differ in the accumulated cost only: a sentinel stays a
sentinel, and while nothing overflows any other result moves by the
difference. -/
theorem calculateCostFuel_shift (n : Nat) (o : Order) (c : String) (v : Visited)
    (a1 a2 : Int) (hn : unvisitedCount v c < n) (h1lo : minInt ≤ a1)
    (h1hi : a1 + openCost v c < maxInt) (h2lo : minInt ≤ a2) :
    ∃ r1 r2, calculateCostFuel n o c v a1 = some r1 ∧ calculateCostFuel n o c v a2 = some r2 ∧
      (r1 = maxInt → r2 = maxInt) ∧
      (a2 + openCost v c ≤ maxInt → r1 ≠ maxInt → r2 = r1 + (a2 - a1)) := by
  induction n generalizing o c v a1 a2 with
  | zero => exact absurd hn (Nat.not_lt_zero _)
  | succ n ih =>
    have hrt := roundTrip_range c
    have hoc := openCost_ge v c
    have hw1 : wrapInt (a1 + roundTrip c) = a1 + roundTrip c := by
      unfold minInt at h1lo
      unfold maxInt at h1hi
      exact wrapInt_of_range _ (by omega) (by omega)
    have hw2 : a2 + openCost v c ≤ maxInt →
        wrapInt (a2 + roundTrip c) = a2 + roundTrip c := by
      intro h2hi
      unfold minInt at h2lo
      unfold maxInt at h2hi
      exact wrapInt_of_range _ (by omega) (by omega)
    by_cases hcov : Covers o [c]
    · refine ⟨_, _, calculateCostFuel_done n o c v a1 hcov,
        calculateCostFuel_done n o c v a2 hcov, ?_, ?_⟩
      · intro h
        rw [hw1] at h
        omega
      · intro h2hi _
        rw [hw1, hw2 h2hi]
        omega
    · have hsub : ∀ a, ∀ x, x ∈ centers →
          (fun next => !(mapIndex (v.insert c true) next false)) x = true →
          ∃ r, (fun next => calculateCostFuel n (remainingOf o c) next
            (copyMap (v.insert c true)) (wrapInt (a + roundTrip c))) x = some r := by
        intro a x hx hg
        apply calculateCostFuel_isSome
        have := unvisitedCount_lt v c x hx ((bnot_eq_true _).mp hg)
        omega
      obtain ⟨m1, hm1, _, hmin1, hsrc1⟩ := foldl_lowerTo _ _ centers maxInt (hsub a1)
      obtain ⟨m2, hm2, hle2, hmin2, hsrc2⟩ := foldl_lowerTo _ _ centers maxInt (hsub a2)
      have hpair : ∀ x, x ∈ centers →
          (fun next => !(mapIndex (v.insert c true) next false)) x = true →
          ∃ r1 r2,
            calculateCostFuel n (remainingOf o c) x (copyMap (v.insert c true))
              (wrapInt (a1 + roundTrip c)) = some r1 ∧
            calculateCostFuel n (remainingOf o c) x (copyMap (v.insert c true))
              (wrapInt (a2 + roundTrip c)) = some r2 ∧
            r1 ≤ maxInt ∧ r2 ≤ maxInt ∧
            (r1 = maxInt → r2 = maxInt) ∧
            (a2 + openCost v c ≤ maxInt → r1 ≠ maxInt → r2 = r1 + (a2 - a1)) := by
        intro x hx hg
        have hvx := (bnot_eq_true _).mp hg
        have hstep := openCost_step v c x hx hvx
        obtain ⟨r1, r2, hr1, hr2, hs1, hs2⟩ := ih (remainingOf o c) x
          (copyMap (v.insert c true)) (wrapInt (a1 + roundTrip c))
          (wrapInt (a2 + roundTrip c))
          (by have := unvisitedCount_lt v c x hx hvx; omega)
          (wrapInt_range _).1 (by rw [hw1]; omega) (wrapInt_range _).1
        refine ⟨r1, r2, hr1, hr2, (calculateCostFuel_range n _ _ _ _ r1 hr1).2,
          (calculateCostFuel_range n _ _ _ _ r2 hr2).2, hs1, ?_⟩
        intro h2hi hne
        have := hs2 (by rw [hw2 h2hi]; omega) hne
        rw [hw1, hw2 h2hi] at this
        omega
      refine ⟨m1, m2, ?_, ?_, ?_, ?_⟩
      · rw [calculateCostFuel_more n o c v a1 hcov]; exact hm1
      · rw [calculateCostFuel_more n o c v a2 hcov]; exact hm2
      · intro hmax
        rcases hsrc2 with h | ⟨x, hx, hg, hsx⟩
        · exact h
        · obtain ⟨r1, r2, hr1, hr2, hb1, _, hs1, _⟩ := hpair x hx hg
          have hle := hmin1 x hx hg r1 hr1
          have h5 : r2 = m2 := Option.some.inj (hr2.symm.trans hsx)
          have h6 : r1 = maxInt := by omega
          rw [← h5]
          exact hs1 h6
      · intro h2hi hne
        have hupper : m2 ≤ m1 + (a2 - a1) ∧ m1 + (a2 - a1) ≤ maxInt := by
          rcases hsrc1 with h | ⟨x, hx, hg, hsx⟩
          · exact absurd h hne
          · obtain ⟨r1, r2, hr1, hr2, _, hb2, _, hs2⟩ := hpair x hx hg
            have h5 : r1 = m1 := Option.some.inj (hr1.symm.trans hsx)
            have h6 := hs2 h2hi (by rw [h5]; exact hne)
            have h7 := hmin2 x hx hg r2 hr2
            rw [h5] at h6
            constructor
            · omega
            · omega
        have hlower : m1 + (a2 - a1) ≤ m2 := by
          rcases hsrc2 with h | ⟨x, hx, hg, hsx⟩
          · rw [h]; exact hupper.2
          · obtain ⟨r1, r2, hr1, hr2, _, _, hs1, hs2⟩ := hpair x hx hg
            have h5 : r2 = m2 := Option.some.inj (hr2.symm.trans hsx)
            have h7 := hmin1 x hx hg r1 hr1
            by_cases hr1max : r1 = maxInt
            · have := hs1 hr1max
              omega
            · have := hs2 h2hi hr1max
              omega
        omega

/-! ## Claims on the accumulated cost -/

/-- C14 (counterexample): with accumulated cost `math.MaxInt`, which is not
negative, the empty order at C1 returns a negative value, below the
accumulated cost, and a recursive call receives a smaller accumulated cost
than its caller. -/
theorem accumulated_decreases_at_maxInt :
    (0 : Int) ≤ maxInt ∧
    calculateCost (∅ : Order) "C1" ∅ maxInt = some (-9223372036854775769) ∧
    ¬ (maxInt ≤ (-9223372036854775769 : Int)) ∧
    ∃ callee, callee ∈ recursiveCalls (Call.mk (orderOf [("Z", 1)]) "C1" ∅ maxInt) ∧
      callee.accumulated < maxInt := by
  decide

/-- C18 (counterexample): for the order {A:1, C:1} at C1 the result with
accumulated cost 0 is 120, not the sentinel, and with accumulated cost
`math.MaxInt - 130` the result is negative: it is neither the exact nor the Go
sum of the accumulated cost and 120. -/
theorem offset_fails_near_maxInt :
    calculateCost (orderOf [("A", 1), ("C", 1)]) "C1" ∅ 0 = some 120 ∧
    (120 : Int) ≠ maxInt ∧
    calculateCost (orderOf [("A", 1), ("C", 1)]) "C1" ∅ (maxInt - 130)
      = some (-9223372036854775779) ∧
    (-9223372036854775779 : Int) ≠ (maxInt - 130) + 120 ∧
    (-9223372036854775779 : Int) ≠ wrapInt ((maxInt - 130) + 120) := by
  decide

/-- C14 (amended): for an accumulated cost `a` with `0 ≤ a` and
`a + 240 ≤ math.MaxInt`, every call made while the call runs, the call itself
included, returns a value at least its accumulated cost plus
`2 * distance * costPerKm`, hence at least its accumulated cost, and hands each
recursive call an accumulated cost at least its own; none is below `a`. -/
theorem accumulated_nondecreasing (root call : Call) (h0 : 0 ≤ root.accumulated)
    (hb : root.accumulated + 240 ≤ maxInt) (hr : ReachableFrom root call) :
    (∃ r, calculateCost call.order call.current call.visited call.accumulated = some r ∧
      call.accumulated + 2 * mapIndex centerDistances call.current 0 * costPerKm ≤ r ∧
      call.accumulated ≤ r) ∧
    (∀ callee, callee ∈ recursiveCalls call → call.accumulated ≤ callee.accumulated) ∧
    root.accumulated ≤ call.accumulated := by
  have hlo : minInt ≤ root.accumulated := by
    unfold minInt
    omega
  have hroot := openCost_le root.visited root.current
  have hinv := reachable_bounds root call maxInt hlo (by omega) (le_refl _) hr
  have hlo2 : minInt ≤ call.accumulated := by
    unfold minInt at hlo ⊢
    omega
  refine ⟨?_, ?_, hinv.1⟩
  · obtain ⟨r, hres⟩ := calculateCostFuel_isSome searchFuel call.order call.current
      call.visited call.accumulated
      (by have := unvisitedCount_le call.visited call.current; unfold searchFuel; omega)
    have hbd := calculateCostFuel_bounds searchFuel _ _ _ _ r hlo2 hinv.2 hres
    have hrt := roundTrip_range call.current
    refine ⟨r, hres, ?_, ?_⟩
    · rw [← roundTrip_eq]
      exact hbd.1
    · omega
  · intro callee hmem
    exact (reachable_bounds call callee maxInt hlo2 hinv.2 (le_refl _)
      (ReachableFrom.call call callee ReachableFrom.root hmem)).1

theorem accumulated_nondecreasing_witness :
    (0 : Int) ≤ 0 ∧ (0 : Int) + 240 ≤ maxInt ∧
    ReachableFrom (Call.mk (orderOf [("A", 1), ("Z", 1)]) "C1" ∅ 0)
      (Call.mk (remainingOf (orderOf [("A", 1), ("Z", 1)]) "C1") "C2"
        (copyMap ((∅ : Visited).insert "C1" true)) 40) ∧
    ∃ r, calculateCost (remainingOf (orderOf [("A", 1), ("Z", 1)]) "C1") "C2"
        (copyMap ((∅ : Visited).insert "C1" true)) 40 = some r ∧
      40 + 2 * mapIndex centerDistances "C2" 0 * costPerKm ≤ r ∧ 40 ≤ r :=
  ⟨by decide, by decide,
    ReachableFrom.call _ _ ReachableFrom.root (List.mem_cons_self _ _),
    (accumulated_nondecreasing (Call.mk (orderOf [("A", 1), ("Z", 1)]) "C1" ∅ 0)
      (Call.mk (remainingOf (orderOf [("A", 1), ("Z", 1)]) "C1") "C2"
        (copyMap ((∅ : Visited).insert "C1" true)) 40) (by decide) (by decide)
      (ReachableFrom.call _ _ ReachableFrom.root (List.mem_cons_self _ _))).1⟩

/-- C18 (amended): the accumulated cost is an additive offset while nothing
overflows. For every 64 bit accumulated cost `a`, if the result with
accumulated cost 0 is the sentinel `math.MaxInt`, so is the result with `a`;
otherwise, when `a + 240 ≤ math.MaxInt`, the result with `a` is `a` plus the
result with 0. -/
theorem accumulated_is_offset (order : Order) (current : String) (visited : Visited)
    (a : Int) (hlo : minInt ≤ a) :
    ∃ r0, calculateCost order current visited 0 = some r0 ∧
      (r0 = maxInt → calculateCost order current visited a = some maxInt) ∧
      (r0 ≠ maxInt → a + 240 ≤ maxInt →
        calculateCost order current visited a = some (a + r0)) := by
  have hoc := openCost_le visited current
  obtain ⟨r1, r2, hr1, hr2, hs1, hs2⟩ := calculateCostFuel_shift searchFuel order current
    visited 0 a
    (by have := unvisitedCount_le visited current; unfold searchFuel; omega)
    (by decide) (by unfold maxInt; omega) hlo
  refine ⟨r1, hr1, ?_, ?_⟩
  · intro h
    rw [← hs1 h]
    exact hr2
  · intro hne hhi
    have := hs2 (by omega) hne
    unfold calculateCost
    rw [hr2, this]
    congr 1
    omega

theorem accumulated_is_offset_witness :
    minInt ≤ (1000 : Int) ∧
    ∃ r0, calculateCost (orderOf [("A", 1), ("C", 1)]) "C1" ∅ 0 = some r0 ∧
      (r0 ≠ maxInt → (1000 : Int) + 240 ≤ maxInt →
        calculateCost (orderOf [("A", 1), ("C", 1)]) "C1" ∅ 1000 = some (1000 + r0)) :=
  ⟨by decide,
    (accumulated_is_offset (orderOf [("A", 1), ("C", 1)]) "C1" ∅ 1000 (by decide)).imp
      (fun _ h => ⟨h.1, h.2.2⟩)⟩

/-- C19: in every call of `calculateCost` made while the handler runs a start
of the catalog, the current facility is one of the catalog, the accumulated
cost is between 0 and 200 and the step cost between 40 and 240, so the Go sum
and product equal the exact ones; neither operand of the addition is
`math.MaxInt`; the call returns the sentinel or a cost between its step cost
and 240, never a wrapped value; and a sentinel result never lowers a running
minimum. -/
theorem no_overflow_from_handler (order : Order) (start : String) (hs : start ∈ centers)
    (call : Call) (hr : ReachableFrom (handlerCall order start) call) :
    call.current ∈ centers ∧
    0 ≤ call.accumulated ∧ call.accumulated ≤ 200 ∧
    40 ≤ call.accumulated + 2 * mapIndex centerDistances call.current 0 * costPerKm ∧
    call.accumulated + 2 * mapIndex centerDistances call.current 0 * costPerKm ≤ 240 ∧
    wrapInt (call.accumulated + roundTrip call.current)
      = call.accumulated + 2 * mapIndex centerDistances call.current 0 * costPerKm ∧
    call.accumulated ≠ maxInt ∧ roundTrip call.current ≠ maxInt ∧
    (∃ r, calculateCost call.order call.current call.visited call.accumulated = some r ∧
      (r = maxInt ∨
        (call.accumulated + 2 * mapIndex centerDistances call.current 0 * costPerKm ≤ r ∧
          r ≤ 240))) ∧
    (∀ min : Int, min ≤ maxInt → lowerTo (some min) (some maxInt) = some min) := by
  have hcur := reachable_current order start hs call hr
  have hroot := openCost_le ∅ start
  have hinv := reachable_bounds (handlerCall order start) call 240
    (by
      show minInt ≤ (0 : Int)
      decide)
    (by
      show (0 : Int) + openCost ∅ start ≤ 240
      omega)
    (by decide) hr
  have hacc : (0 : Int) ≤ call.accumulated := hinv.1
  have hrt := roundTrip_range call.current
  have hge := roundTrip_ge_of_mem call.current hcur
  have hoc := openCost_ge call.visited call.current
  have hinv2 := hinv.2
  rw [← roundTrip_eq]
  have hw : wrapInt (call.accumulated + roundTrip call.current)
      = call.accumulated + roundTrip call.current :=
    wrapInt_of_range _ (by omega) (by omega)
  refine ⟨hcur, hacc, by omega, by omega, by omega, hw, ?_, ?_, ?_, ?_⟩
  · unfold maxInt; omega
  · unfold maxInt; omega
  · obtain ⟨r, hres⟩ := calculateCostFuel_isSome searchFuel call.order call.current
      call.visited call.accumulated
      (by have := unvisitedCount_le call.visited call.current; unfold searchFuel; omega)
    have hbd := calculateCostFuel_bounds searchFuel _ _ _ _ r
      (by unfold minInt; omega) (by unfold maxInt; omega) hres
    refine ⟨r, hres, ?_⟩
    rcases hbd.2 with h | h
    · left; exact h
    · right
      exact ⟨hbd.1, by omega⟩
  · intro min hmin
    rw [lowerTo_some, if_neg (by omega)]

theorem no_overflow_from_handler_witness :
    "C1" ∈ centers ∧
    ReachableFrom (handlerCall (orderOf [("A", 1), ("Z", 1)]) "C1")
      (Call.mk (remainingOf (orderOf [("A", 1), ("Z", 1)]) "C1") "C2"
        (copyMap ((∅ : Visited).insert "C1" true)) 40) ∧
    wrapInt ((40 : Int) + roundTrip "C2")
      = 40 + 2 * mapIndex centerDistances "C2" 0 * costPerKm :=
  ⟨by decide,
    ReachableFrom.call _ _ ReachableFrom.root (List.mem_cons_self _ _),
    (no_overflow_from_handler (orderOf [("A", 1), ("Z", 1)]) "C1" (by decide)
      (Call.mk (remainingOf (orderOf [("A", 1), ("Z", 1)]) "C1") "C2"
        (copyMap ((∅ : Visited).insert "C1" true)) 40)
      (ReachableFrom.call _ _ ReachableFrom.root (List.mem_cons_self _ _))).2.2.2.2.2.1⟩

/-! ## The sentinel at the handler -/

theorem pathCost_ge_of_valid (s : List String) (hs : ValidPath s) : 40 ≤ pathCost s := by
  obtain ⟨hne, _, hcen⟩ := hs
  cases s with
  | nil => exact absurd rfl hne
  | cons c t =>
    rw [pathCost_cons]
    have h1 := roundTrip_ge_of_mem c (hcen c (List.mem_cons_self _ _))
    have h2 := pathCost_nonneg t
    omega

/-- C17: the handler returns the sentinel only for unsatisfiable orders. When
every product key is stocked by some facility of the catalog the minimum is not
`math.MaxInt` and lies between 40 and 240; the minimum is `math.MaxInt` exactly
when some product key is stocked by no facility of the catalog. -/
theorem sentinel_iff_unstocked (order : Order) :
    ∃ m, minimumCost order = some m ∧
      ((∀ k, k ∈ order.keys → ∃ f, f ∈ centers ∧ k ∈ stockOf f) →
        m ≠ maxInt ∧ 40 ≤ m ∧ m ≤ 240) ∧
      (m = maxInt ↔ ∃ k, k ∈ order.keys ∧ ∀ f, f ∈ centers → k ∉ stockOf f) := by
  obtain ⟨m, hm, _, _, _⟩ := minimumCost_spec order
  have hstocked : (∀ k, k ∈ order.keys → ∃ f, f ∈ centers ∧ k ∈ stockOf f) →
      m ≠ maxInt ∧ 40 ≤ m ∧ m ≤ 240 := by
    intro hall
    obtain ⟨m2, hm2, hle⟩ := minimumCost_le_path order centers validPath_centers
      (covers_centers order hall)
    rw [hm] at hm2
    cases hm2
    rw [pathCost_centers] at hle
    have hne : m ≠ maxInt := by
      unfold maxInt
      omega
    obtain ⟨s, hs, _, hcost⟩ := minimumCost_attained order m hm hne
    have := pathCost_ge_of_valid s hs
    exact ⟨hne, by omega, hle⟩
  refine ⟨m, hm, hstocked, ?_, ?_⟩
  · intro hmax
    by_contra hno
    apply (hstocked ?_).1 hmax
    intro k hk
    by_contra hnf
    apply hno
    refine ⟨k, hk, ?_⟩
    intro f hf hs
    exact hnf ⟨f, hf, hs⟩
  · rintro ⟨k, hk, hno⟩
    by_contra hne
    obtain ⟨s, hs, hcov, _⟩ := minimumCost_attained order m hm hne
    obtain ⟨f, hf, hfs⟩ := hcov k hk
    exact hno f (hs.2.2 f hf) hfs

theorem sentinel_iff_unstocked_witness :
    (∀ k, k ∈ (orderOf [("B", 1), ("D", 1), ("F", 1)]).keys →
      ∃ f, f ∈ centers ∧ k ∈ stockOf f) ∧
    ∃ m, minimumCost (orderOf [("B", 1), ("D", 1), ("F", 1)]) = some m ∧
      m ≠ maxInt ∧ 40 ≤ m ∧ m ≤ 240 :=
  ⟨by decide,
    (sentinel_iff_unstocked (orderOf [("B", 1), ("D", 1), ("F", 1)])).imp
      (fun _ h => ⟨h.1, h.2.1 (by decide)⟩)⟩

/-! ## Iteration order of the facility list -/

theorem lowerTo_comm (z a b : Option Int) :
    lowerTo (lowerTo z a) b = lowerTo (lowerTo z b) a := by
  cases z with
  | none => rfl
  | some z =>
    cases a with
    | none => rw [lowerTo_none_right, lowerTo_none_right, lowerTo_none_left]
    | some a =>
      cases b with
      | none => rw [lowerTo_none_right, lowerTo_none_right, lowerTo_none_left]
      | some b =>
        rw [lowerTo_some, lowerTo_some]
        by_cases h1 : a < z <;> by_cases h2 : b < z
        · rw [if_pos h1, if_pos h2, lowerTo_some, lowerTo_some]
          by_cases h3 : b < a
          · rw [if_pos h3, if_neg (by omega)]
          · rw [if_neg h3]
            by_cases h4 : a < b
            · rw [if_pos h4]
            · rw [if_neg h4]
              congr 1
              omega
        · rw [if_pos h1, if_neg h2, lowerTo_some, lowerTo_some, if_neg (by omega), if_pos h1]
        · rw [if_neg h1, if_pos h2, lowerTo_some, lowerTo_some, if_pos h2, if_neg (by omega)]
        · rw [if_neg h1, if_neg h2, lowerTo_some, lowerTo_some, if_neg h2, if_neg h1]

theorem foldl_lowerTo_perm (g : String → Bool) (sub : String → Option Int)
    (l1 l2 : List String) (hp : l1.Perm l2) (init : Option Int) :
    l1.foldl (fun min next => if g next = true then lowerTo min (sub next) else min) init
      = l2.foldl (fun min next => if g next = true then lowerTo min (sub next) else min)
          init := by
  apply hp.foldl_eq'
  intro x _ y _ z
  by_cases hx : g x = true <;> by_cases hy : g y = true
  · simp only [hx, hy, if_true]
    exact lowerTo_comm z (sub x) (sub y)
  · simp only [hx, hy, if_true]
    rfl
  · simp only [hx, hy, if_true]
    rfl
  · simp only [hx, hy]
    rfl

theorem calculateCostOver_centers (n : Nat) (o : Order) (c : String) (v : Visited) (a : Int) :
    calculateCostOver centers n o c v a = calculateCostFuel n o c v a := by
  induction n generalizing o c v a with
  | zero => rfl
  | succ n ih =>
    simp only [calculateCostOver, calculateCostFuel, ih]

theorem calculateCostOver_perm (facilities : List String) (hp : facilities.Perm centers)
    (n : Nat) (o : Order) (c : String) (v : Visited) (a : Int) :
    calculateCostOver facilities n o c v a = calculateCostFuel n o c v a := by
  induction n generalizing o c v a with
  | zero => rfl
  | succ n ih =>
    simp only [calculateCostOver, calculateCostFuel, ih]
    by_cases hlen : mapLen (deductStock (copyOrder o) (mapIndex centerStock c [])) = 0
    · rw [if_pos hlen, if_pos hlen]
    · rw [if_neg hlen, if_neg hlen]
      exact foldl_lowerTo_perm
        (fun next => !(mapIndex (v.insert c true) next false))
        (fun next => calculateCostFuel n (deductStock (copyOrder o)
          (mapIndex centerStock c [])) next (copyMap (v.insert c true))
          (wrapInt (a + roundTrip c)))
        facilities centers hp (some maxInt)

/-- C15: the result does not depend on the iteration order of the facility
list. For every permutation of `centers`, used both to choose the start and to
choose the next facility inside `calculateCost`, every call of `calculateCost`
returns what it returns with `centers`, and the handler minimum is the same. -/
theorem minimumCost_iteration_order (facilities : List String)
    (hp : facilities.Perm centers) (order : Order) :
    minimumCostOver facilities order = minimumCost order ∧
    ∀ current visited accumulated,
      calculateCostOver facilities searchFuel order current visited accumulated
        = calculateCost order current visited accumulated := by
  constructor
  · unfold minimumCostOver minimumCost calculateCost
    have hfun : (fun (minCost : Option Int) (start : String) =>
        lowerTo minCost (calculateCostOver facilities searchFuel order start ∅ 0)) =
        (fun (minCost : Option Int) (start : String) =>
          if (fun _ : String => true) start = true then
            lowerTo minCost (calculateCostFuel searchFuel order start ∅ 0)
          else minCost) := by
      funext minCost start
      rw [calculateCostOver_perm facilities hp]
      rfl
    rw [hfun]
    exact foldl_lowerTo_perm (fun _ => true)
      (fun start => calculateCostFuel searchFuel order start ∅ 0) facilities centers hp
      (some maxInt)
  · intro current visited accumulated
    exact calculateCostOver_perm facilities hp searchFuel order current visited accumulated

theorem minimumCost_iteration_order_witness :
    ["C3", "C1", "C2"].Perm centers ∧
    minimumCostOver ["C3", "C1", "C2"] (orderOf [("A", 1), ("C", 1)])
      = minimumCost (orderOf [("A", 1), ("C", 1)]) :=
  ⟨by decide,
    (minimumCost_iteration_order ["C3", "C1", "C2"] (by decide)
      (orderOf [("A", 1), ("C", 1)])).1⟩

/-! ## The request handler -/

theorem minimumCostFuel_searchFuel (order : Order) :
    minimumCostFuel searchFuel order = minimumCost order := rfl

theorem minimumCostFuel_zero (order : Order) : minimumCostFuel 0 order = none := rfl

/-- C11: the handler rejects protocol errors without running the search. A
request whose method is not POST gets status 405 and a POST request whose body
does not decode gets status 400, both even with no fuel for the search; a POST
request with a decodable body gets the computed minimum cost, for which the
search has to run; and a response carrying a cost comes from such a request
only. -/
theorem handler_protocol_errors (decode : String → Option Order) (r : Request) :
    (r.method ≠ "POST" → ∀ fuel,
      deliveryCostHandlerFuel decode fuel r
        = some (Response.error "Only POST method is allowed" 405) ∧
      (Response.error "Only POST method is allowed" 405).status = 405) ∧
    (r.method = "POST" → decode r.body = none → ∀ fuel,
      deliveryCostHandlerFuel decode fuel r
        = some (Response.error "Invalid request body" 400) ∧
      (Response.error "Invalid request body" 400).status = 400) ∧
    (∀ order, r.method = "POST" → decode r.body = some order →
      ∃ m, minimumCost order = some m ∧
        deliveryCostHandler decode r = some (Response.json (CostResponse.mk m)) ∧
        deliveryCostHandlerFuel decode 0 r = none) ∧
    (∀ data, deliveryCostHandler decode r = some (Response.json data) →
      r.method = "POST" ∧
      ∃ order, decode r.body = some order ∧ minimumCost order = some data.MinimumCost) := by
  refine ⟨?_, ?_, ?_, ?_⟩
  · intro hm fuel
    have hm2 : r.method ≠ methodPost := hm
    refine ⟨?_, rfl⟩
    unfold deliveryCostHandlerFuel
    rw [if_pos hm2]
    rfl
  · intro hm hd fuel
    have hm2 : ¬ r.method ≠ methodPost := fun h => h hm
    refine ⟨?_, rfl⟩
    unfold deliveryCostHandlerFuel
    rw [if_neg hm2, hd]
    rfl
  · intro order hm hd
    have hm2 : ¬ r.method ≠ methodPost := fun h => h hm
    obtain ⟨m, hmin, _⟩ := minimumCost_spec order
    refine ⟨m, hmin, ?_, ?_⟩
    · unfold deliveryCostHandler deliveryCostHandlerFuel
      rw [if_neg hm2, hd]
      simp only [minimumCostFuel_searchFuel, hmin]
    · unfold deliveryCostHandlerFuel
      rw [if_neg hm2, hd]
      simp only [minimumCostFuel_zero]
  · intro data hresp
    unfold deliveryCostHandler deliveryCostHandlerFuel at hresp
    by_cases hm : r.method ≠ methodPost
    · rw [if_pos hm] at hresp
      exact absurd hresp (by simp)
    · rw [if_neg hm] at hresp
      have hpost : r.method = "POST" := not_not.mp hm
      refine ⟨hpost, ?_⟩
      cases hd : decode r.body with
      | none =>
        rw [hd] at hresp
        exact absurd hresp (by simp)
      | some order =>
        rw [hd] at hresp
        refine ⟨order, rfl, ?_⟩
        simp only [minimumCostFuel_searchFuel] at hresp
        cases hmin : minimumCost order with
        | none =>
          rw [hmin] at hresp
          exact absurd hresp (by simp)
        | some m =>
          rw [hmin] at hresp
          simp only [Option.some.injEq, Response.json.injEq] at hresp
          rw [← hresp]

theorem handler_protocol_errors_witness :
    (Request.mk "GET" "\x7b\x7d").method ≠ "POST" ∧
    deliveryCostHandlerFuel (fun body => if body = "\x7b\x7d" then some ∅ else none) 0
      (Request.mk "GET" "\x7b\x7d")
      = some (Response.error "Only POST method is allowed" 405) :=
  ⟨by decide,
    ((handler_protocol_errors (fun body => if body = "\x7b\x7d" then some ∅ else none)
      (Request.mk "GET" "\x7b\x7d")).1 (by decide) 0).1⟩

/-! ## Maps as references -/

theorem getD_append_left {V : Type} (l : List V) (x d : V) (i : Nat) (hi : i < l.length) :
    (l ++ [x]).getD i d = l.getD i d := by
  rw [List.getD_eq_getElem _ _ (by rw [List.length_append]; omega),
    List.getD_eq_getElem _ _ hi, List.getElem_append_left hi]

theorem getD_append_length {V : Type} (l : List V) (x d : V) :
    (l ++ [x]).getD l.length d = x := by
  rw [List.getD_eq_getElem _ _ (by rw [List.length_append]; simp)]
  simp

theorem getD_set_same {V : Type} (l : List V) (x d : V) (i : Nat) (hi : i < l.length) :
    (l.set i x).getD i d = x := by
  rw [List.getD_eq_getElem _ _ (by rw [List.length_set]; exact hi)]
  simp

theorem getD_set_ne {V : Type} (l : List V) (x d : V) (i j : Nat) (hij : i ≠ j) :
    (l.set i x).getD j d = l.getD j d := by
  simp [List.getD_eq_getElem?_getD, List.getElem?_set_ne hij]

theorem set_getD_self {V : Type} (l : List V) (d : V) (i : Nat) (hi : i < l.length) :
    l.set i (l.getD i d) = l := by
  induction l generalizing i with
  | nil => rfl
  | cons a l ih =>
    cases i with
    | zero => rfl
    | succ i =>
      simp only [List.set_cons_succ, List.getD_cons_succ]
      rw [ih i (by simpa using hi)]

theorem set_append_length {V : Type} (l : List V) (x y : V) :
    (l ++ [x]).set l.length y = l ++ [y] := by
  induction l with
  | nil => rfl
  | cons a l ih =>
    simp only [List.cons_append, List.length_cons, List.set_cons_succ, ih]

/-- Folding writes to one order map is one write of the folded value. -/
theorem foldl_storeOrder {X : Type} (step : Heap → X → Heap) (pure : Order → X → Order)
    (ref : Nat)
    (hstep : ∀ (h : Heap) (x : X), ref < h.orders.length →
      step h x = h.storeOrder ref (pure (h.orderAt ref) x))
    (l : List X) (h : Heap) (href : ref < h.orders.length) :
    l.foldl step h = h.storeOrder ref (l.foldl pure (h.orderAt ref)) := by
  induction l generalizing h with
  | nil =>
    simp only [List.foldl_nil, Heap.storeOrder, Heap.orderAt]
    rw [set_getD_self _ _ _ href]
  | cons x l ih =>
    rw [List.foldl_cons, hstep h x href, ih _ (by simp [Heap.storeOrder]; exact href)]
    simp only [Heap.storeOrder, Heap.orderAt, List.set_set]
    rw [getD_set_same _ _ _ _ href]
    rfl

/-- Folding writes to one visited map is one write of the folded value. -/
theorem foldl_storeVisited {X : Type} (step : Heap → X → Heap)
    (pure : Visited → X → Visited) (ref : Nat)
    (hstep : ∀ (h : Heap) (x : X), ref < h.visiteds.length →
      step h x = h.storeVisited ref (pure (h.visitedAt ref) x))
    (l : List X) (h : Heap) (href : ref < h.visiteds.length) :
    l.foldl step h = h.storeVisited ref (l.foldl pure (h.visitedAt ref)) := by
  induction l generalizing h with
  | nil =>
    simp only [List.foldl_nil, Heap.storeVisited, Heap.visitedAt]
    rw [set_getD_self _ _ _ href]
  | cons x l ih =>
    rw [List.foldl_cons, hstep h x href, ih _ (by simp [Heap.storeVisited]; exact href)]
    simp only [Heap.storeVisited, Heap.visitedAt, List.set_set]
    rw [getD_set_same _ _ _ _ href]
    rfl

/-- The heap after `copyMap`: one more visited map, the copy, and nothing else
changed. -/
theorem copyMapHeap_spec (h : Heap) (orig : Nat) (ho : orig < h.visiteds.length) :
    (copyMapHeap h orig).1 = h.visiteds.length ∧
    (copyMapHeap h orig).2 = Heap.mk h.orders (h.visiteds ++ [copyMap (h.visitedAt orig)]) := by
  refine ⟨rfl, ?_⟩
  unfold copyMapHeap
  simp only [Heap.makeVisited]
  unfold AList.foldl
  rw [foldl_storeVisited
    (fun (h : Heap) (e : Sigma (fun _ : String => Bool)) =>
      h.storeVisited _ ((h.visitedAt _).insert e.1 e.2))
    (fun (m : Visited) (e : Sigma (fun _ : String => Bool)) => m.insert e.1 e.2)
    h.visiteds.length (fun _ _ _ => rfl) _ _
    (by simp)]
  simp only [Heap.storeVisited, Heap.visitedAt, getD_append_length, set_append_length,
    getD_append_left _ _ _ _ ho]
  rfl

/-- The heap after the first two loops of `calculateCost`: one more order map,
the remaining order, and nothing else changed. -/
theorem makeRemaining_spec (h : Heap) (order : Nat) (available : List String)
    (ho : order < h.orders.length) :
    (makeRemaining h order available).1 = h.orders.length ∧
    (makeRemaining h order available).2
      = Heap.mk (h.orders ++ [deductStock (copyOrder (h.orderAt order)) available])
          h.visiteds := by
  refine ⟨rfl, ?_⟩
  unfold makeRemaining
  simp only [Heap.makeOrder]
  unfold AList.foldl
  rw [foldl_storeOrder
    (fun (h : Heap) (e : Sigma (fun _ : String => Int)) =>
      h.storeOrder _ ((h.orderAt _).insert e.1 e.2))
    (fun (m : Order) (e : Sigma (fun _ : String => Int)) => m.insert e.1 e.2)
    h.orders.length (fun _ _ _ => rfl) _ _ (by simp)]
  rw [foldl_storeOrder
    (fun (h : Heap) (prod : String) =>
      if ((h.orderAt _).lookup prod).isSome then
        h.storeOrder _ ((h.orderAt _).erase prod)
      else h)
    (fun (m : Order) (prod : String) => if (m.lookup prod).isSome then m.erase prod else m)
    h.orders.length
    (by
      intro h2 x hx
      beta_reduce
      by_cases hc : ((h2.orderAt h.orders.length).lookup x).isSome
      · rw [if_pos hc, if_pos hc]
      · rw [if_neg hc, if_neg hc]
        simp only [Heap.storeOrder, Heap.orderAt]
        rw [set_getD_self _ _ _ hx])
    _ _ (by simp [Heap.storeOrder])]
  simp only [Heap.storeOrder, Heap.orderAt, getD_append_length, set_append_length,
    getD_append_left _ _ _ _ ho, List.set_set, getD_set_same _ _ _ _
      (show h.orders.length < (h.orders ++ [(∅ : Order)]).length by simp)]
  rfl

theorem foldl_visitNext_none
    (recur : Heap → Nat → String → Nat → Int → Option (Int × Heap))
    (remaining visited : Nat) (cost : Int) (l : List String) :
    l.foldl (visitNext recur remaining visited cost) none = none := by
  induction l with
  | nil => rfl
  | cons y l ih =>
    rw [List.foldl_cons]
    exact ih

theorem preserves_refl (h : Heap) (written : Nat) : h.Preserves h written :=
  ⟨le_refl _, le_refl _, fun _ _ => rfl, fun _ _ _ => rfl⟩

/-- The loop over `centers` on references agrees with the loop on values and
changes no map of the heap it started from, provided the recursive call does
so. -/
theorem foldl_visitNext_spec
    (recur : Heap → Nat → String → Nat → Int → Option (Int × Heap))
    (pureRec : Order → String → Visited → Int → Option Int)
    (hrec : ∀ (h : Heap) (o : Nat) (c : String) (v : Nat) (a : Int),
      o < h.orders.length → v < h.visiteds.length →
      (recur h o c v a).map Prod.fst = pureRec (h.orderAt o) c (h.visitedAt v) a ∧
      ∀ r h2, recur h o c v a = some (r, h2) → h.Preserves h2 v)
    (base : Heap) (remaining visited : Nat) (hR : remaining < base.orders.length)
    (hv : visited < base.visiteds.length) (cost : Int) (l : List String) (min : Int)
    (hc : Heap) (hinv : base.Preserves hc base.visiteds.length) :
    (l.foldl (visitNext recur remaining visited cost) (some (min, hc))).map Prod.fst
      = l.foldl
          (fun min next =>
            if (!(mapIndex (base.visitedAt visited) next false)) = true then
              lowerTo min (pureRec (base.orderAt remaining) next
                (copyMap (base.visitedAt visited)) cost)
            else min)
          (some min) ∧
    ∀ r h2, l.foldl (visitNext recur remaining visited cost) (some (min, hc)) = some (r, h2) →
      base.Preserves h2 base.visiteds.length := by
  induction l generalizing min hc with
  | nil =>
    refine ⟨rfl, ?_⟩
    intro r h2 h
    simp only [List.foldl_nil, Option.some.injEq, Prod.mk.injEq] at h
    rw [← h.2]
    exact hinv
  | cons next l ih =>
    obtain ⟨hlo, hlv, hord, hvis⟩ := hinv
    have hvc : visited < hc.visiteds.length := by omega
    have hRc : remaining < hc.orders.length := by omega
    have hsame : hc.visitedAt visited = base.visitedAt visited :=
      hvis visited hv (by omega)
    have hrem : hc.orderAt remaining = base.orderAt remaining := hord remaining hR
    obtain ⟨hcopy1, hcopy2⟩ := copyMapHeap_spec hc visited hvc
    rw [List.foldl_cons, List.foldl_cons]
    by_cases hg : (!(mapIndex (base.visitedAt visited) next false)) = true
    · have hg2 : (!(mapIndex (hc.visitedAt visited) next false)) = true := by
        rw [hsame]; exact hg
      have hcall := hrec (copyMapHeap hc visited).2 remaining next (copyMapHeap hc visited).1
        cost (by rw [hcopy2]; exact hRc) (by rw [hcopy1, hcopy2]; simp)
      have horder : (copyMapHeap hc visited).2.orderAt remaining = base.orderAt remaining := by
        rw [hcopy2, ← hrem]
        rfl
      have hvisit : (copyMapHeap hc visited).2.visitedAt (copyMapHeap hc visited).1
          = copyMap (base.visitedAt visited) := by
        rw [hcopy1, hcopy2, ← hsame]
        exact getD_append_length _ _ _
      rw [horder, hvisit] at hcall
      rw [if_pos hg]
      cases hres : recur (copyMapHeap hc visited).2 remaining next
          (copyMapHeap hc visited).1 cost with
      | none =>
        have hstep : visitNext recur remaining visited cost (some (min, hc)) next = none := by
          simp only [visitNext, hg2, if_true, hres]
        rw [hres] at hcall
        rw [hstep, foldl_visitNext_none, ← hcall.1]
        refine ⟨?_, fun r h2 h => absurd h (by simp)⟩
        have : lowerTo (some min) (Option.map Prod.fst (none : Option (Int × Heap))) = none := rfl
        rw [this]
        exact (foldl_lowerTo_none _ _ l).symm
      | some res =>
        obtain ⟨sub, hc2⟩ := res
        have hstep : visitNext recur remaining visited cost (some (min, hc)) next
            = some (if sub < min then sub else min, hc2) := by
          simp only [visitNext, hg2, if_true, hres]
        have hpres := hcall.2 sub hc2 hres
        rw [hres] at hcall
        have hinv2 : base.Preserves hc2 base.visiteds.length := by
          obtain ⟨h1, h2, h3, h4⟩ := hpres
          rw [hcopy2] at h1 h2 h3 h4
          dsimp only at h1 h2 h3 h4
          simp only [List.length_append, List.length_singleton] at h2 h4
          refine ⟨by omega, by omega, ?_, ?_⟩
          · intro i hi
            rw [h3 i (by omega), ← hord i hi]
            rfl
          · intro j hj _
            rw [h4 j (by omega) (by rw [hcopy1]; omega), ← hvis j hj (by omega)]
            exact getD_append_left _ _ _ _ (by omega)
        rw [hstep, ← hcall.1]
        have : lowerTo (some min) (Option.map Prod.fst (some (sub, hc2)))
            = some (if sub < min then sub else min) := by
          show lowerTo (some min) (some sub) = _
          rw [lowerTo_some]
          split <;> rfl
        rw [this]
        exact ih (if sub < min then sub else min) hc2 hinv2
    · have hg2 : ¬ (!(mapIndex (hc.visitedAt visited) next false)) = true := by
        rw [hsame]; exact hg
      have hstep : visitNext recur remaining visited cost (some (min, hc)) next
          = some (min, hc) := by
        simp only [visitNext, hg2]
        rfl
      rw [hstep, if_neg hg]
      exact ih min hc ⟨hlo, hlv, hord, hvis⟩

theorem calculateCostHeap_succ (n : Nat) (h : Heap) (o : Nat) (c : String) (v : Nat)
    (a : Int) :
    calculateCostHeap (n + 1) h o c v a =
      if mapLen ((makeRemaining h o (mapIndex centerStock c [])).2.orderAt
          (makeRemaining h o (mapIndex centerStock c [])).1) = 0 then
        some (wrapInt (a + roundTrip c), (makeRemaining h o (mapIndex centerStock c [])).2)
      else
        centers.foldl
          (visitNext (calculateCostHeap n) (makeRemaining h o (mapIndex centerStock c [])).1 v
            (wrapInt (a + roundTrip c)))
          (some (maxInt,
            (makeRemaining h o (mapIndex centerStock c [])).2.storeVisited v
              (((makeRemaining h o (mapIndex centerStock c [])).2.visitedAt v).insert c
                true))) := rfl

/-- The run on references returns what the run on values returns, keeps every
map of the heap except the visited map it was given, and leaves that one as it
was or with the current facility marked. -/
theorem calculateCostHeap_spec (n : Nat) (h : Heap) (o : Nat) (c : String) (v : Nat)
    (a : Int) (ho : o < h.orders.length) (hv : v < h.visiteds.length) :
    (calculateCostHeap n h o c v a).map Prod.fst
      = calculateCostFuel n (h.orderAt o) c (h.visitedAt v) a ∧
    ∀ r h2, calculateCostHeap n h o c v a = some (r, h2) →
      h.Preserves h2 v ∧
      (h2.visitedAt v = h.visitedAt v ∨ h2.visitedAt v = (h.visitedAt v).insert c true) := by
  induction n generalizing h o c v a with
  | zero =>
    refine ⟨rfl, ?_⟩
    intro r h2 hres
    exact absurd hres (by simp [calculateCostHeap])
  | succ n ih =>
    obtain ⟨hR, hheap⟩ := makeRemaining_spec h o (mapIndex centerStock c []) ho
    have hrem : (makeRemaining h o (mapIndex centerStock c [])).2.orderAt
        (makeRemaining h o (mapIndex centerStock c [])).1 = remainingOf (h.orderAt o) c := by
      rw [hR, hheap]
      exact getD_append_length _ _ _
    have hvis1 : (makeRemaining h o (mapIndex centerStock c [])).2.visitedAt v
        = h.visitedAt v := by
      rw [hheap]
      rfl
    rw [calculateCostHeap_succ, calculateCostFuel_succ, hrem, hvis1]
    by_cases hlen : mapLen (remainingOf (h.orderAt o) c) = 0
    · rw [if_pos hlen, if_pos hlen]
      refine ⟨rfl, ?_⟩
      intro r h2 hres
      simp only [Option.some.injEq, Prod.mk.injEq] at hres
      rw [← hres.2, hheap]
      refine ⟨⟨by simp, le_refl _, ?_, fun _ _ _ => rfl⟩, Or.inl rfl⟩
      intro i hi
      exact getD_append_left _ _ _ _ hi
    · rw [if_neg hlen, if_neg hlen]
      have hbaseR : (makeRemaining h o (mapIndex centerStock c [])).1
          < ((makeRemaining h o (mapIndex centerStock c [])).2.storeVisited v
            ((h.visitedAt v).insert c true)).orders.length := by
        rw [hR, hheap]
        simp [Heap.storeVisited]
      have hbasev : v < ((makeRemaining h o (mapIndex centerStock c [])).2.storeVisited v
            ((h.visitedAt v).insert c true)).visiteds.length := by
        rw [hheap]
        simp only [Heap.storeVisited, List.length_set]
        exact hv
      have hloop := foldl_visitNext_spec (calculateCostHeap n) (calculateCostFuel n)
        (fun h o c v a ho hv =>
          ⟨(ih h o c v a ho hv).1, fun r h2 hres => ((ih h o c v a ho hv).2 r h2 hres).1⟩)
        ((makeRemaining h o (mapIndex centerStock c [])).2.storeVisited v
          ((h.visitedAt v).insert c true))
        (makeRemaining h o (mapIndex centerStock c [])).1 v hbaseR hbasev
        (wrapInt (a + roundTrip c)) centers maxInt _ (preserves_refl _ _)
      have hbv : ((makeRemaining h o (mapIndex centerStock c [])).2.storeVisited v
          ((h.visitedAt v).insert c true)).visitedAt v = (h.visitedAt v).insert c true := by
        rw [hheap]
        simp only [Heap.storeVisited, Heap.visitedAt]
        exact getD_set_same _ _ _ _ hv
      have hbo : ((makeRemaining h o (mapIndex centerStock c [])).2.storeVisited v
          ((h.visitedAt v).insert c true)).orderAt
            (makeRemaining h o (mapIndex centerStock c [])).1
          = remainingOf (h.orderAt o) c := hrem
      rw [hbv, hbo] at hloop
      refine ⟨hloop.1, ?_⟩
      intro r h2 hres
      obtain ⟨h1, h2l, h3, h4⟩ := hloop.2 r h2 hres
      rw [hheap] at h1 h2l h3 h4
      simp only [Heap.storeVisited, List.length_append, List.length_singleton,
        List.length_set] at h1 h2l h3 h4
      refine ⟨⟨by omega, by omega, ?_, ?_⟩, Or.inr ?_⟩
      · intro i hi
        rw [h3 i (by omega)]
        exact getD_append_left _ _ _ _ hi
      · intro j hj hjv
        rw [h4 j hj (by omega)]
        exact getD_set_ne _ _ _ _ _ (fun h => hjv h.symm)
      · rw [h4 v hv (by omega)]
        exact getD_set_same _ _ _ _ hv

theorem entries_foldl_insert {V : Type} (l : List (Sigma (fun _ : String => V)))
    (hl : l.NodupKeys) (acc : GoMap V) (hdis : ∀ e, e ∈ l → e.1 ∉ acc) :
    (l.foldl (fun r a => r.insert a.1 a.2) acc).entries = l.reverse ++ acc.entries := by
  induction l generalizing acc with
  | nil => rfl
  | cons e l ih =>
    rw [List.nodupKeys_cons] at hl
    have he : e.1 ∉ acc := hdis e (List.mem_cons_self _ _)
    rw [List.foldl_cons, ih hl.2, AList.insert_entries_of_neg he, List.reverse_cons,
      List.append_assoc]
    · rfl
    · intro e2 he2 hmem
      rcases (AList.mem_insert acc).mp hmem with h | h
      · apply hl.1
        rw [← h]
        exact List.mem_keys_of_mem he2
      · exact hdis e2 (List.mem_cons_of_mem _ he2) h

/-- The copy made by `copyMap` has exactly the entries of the original. -/
theorem copyMap_entries_perm (v : Visited) : (copyMap v).entries.Perm v.entries := by
  unfold copyMap AList.foldl
  rw [entries_foldl_insert v.entries v.nodupKeys ∅ (fun e _ => AList.not_mem_empty e.1)]
  simp only [AList.empty_entries, List.append_nil]
  exact List.reverse_perm _

/-! ## Claim on branch isolation -/

/-- C16: branch isolation. With maps as references into a heap, a call of
`calculateCost` returns what the run on map values returns, in which every
recursive call receives the same remaining order and a copy of the same
visited map whatever its siblings did; it leaves the order map of the caller
and every other map of the heap unchanged, except the visited map it was
given, which is unchanged or has the current facility added; and `copyMap`
returns a new map with exactly the entries of the original and changes no
other map. -/
theorem branch_isolation (n : Nat) (h : Heap) (order : Nat) (current : String)
    (visited : Nat) (accumulated : Int) (ho : order < h.orders.length)
    (hv : visited < h.visiteds.length) :
    (calculateCostHeap n h order current visited accumulated).map Prod.fst
      = calculateCostFuel n (h.orderAt order) current (h.visitedAt visited) accumulated ∧
    (∃ r h2, calculateCostHeap searchFuel h order current visited accumulated = some (r, h2)) ∧
    (∀ r h2, calculateCostHeap n h order current visited accumulated = some (r, h2) →
      h2.orderAt order = h.orderAt order ∧
      (∀ i, i < h.orders.length → h2.orderAt i = h.orderAt i) ∧
      (∀ j, j < h.visiteds.length → j ≠ visited → h2.visitedAt j = h.visitedAt j) ∧
      (h2.visitedAt visited = h.visitedAt visited ∨
        h2.visitedAt visited = (h.visitedAt visited).insert current true)) ∧
    ((copyMapHeap h visited).1 = h.visiteds.length ∧
      (copyMapHeap h visited).2.visitedAt (copyMapHeap h visited).1
        = copyMap (h.visitedAt visited) ∧
      (copyMap (h.visitedAt visited)).entries.Perm (h.visitedAt visited).entries ∧
      h.Preserves (copyMapHeap h visited).2 h.visiteds.length) := by
  have hspec := calculateCostHeap_spec n h order current visited accumulated ho hv
  refine ⟨hspec.1, ?_, ?_, ?_⟩
  · have h4 := (calculateCostHeap_spec searchFuel h order current visited accumulated
      ho hv).1
    obtain ⟨r, hr⟩ := calculateCostFuel_isSome searchFuel (h.orderAt order) current
      (h.visitedAt visited) accumulated
      (by have := unvisitedCount_le (h.visitedAt visited) current; unfold searchFuel; omega)
    rw [hr] at h4
    cases hres : calculateCostHeap searchFuel h order current visited accumulated with
    | none =>
      rw [hres] at h4
      exact absurd h4 (by simp)
    | some res => exact ⟨res.1, res.2, rfl⟩
  · intro r h2 hres
    obtain ⟨⟨_, _, h3, h4⟩, h5⟩ := hspec.2 r h2 hres
    exact ⟨h3 order ho, h3, h4, h5⟩
  · obtain ⟨hc1, hc2⟩ := copyMapHeap_spec h visited hv
    refine ⟨hc1, ?_, copyMap_entries_perm _, ?_⟩
    · rw [hc1, hc2]
      exact getD_append_length _ _ _
    · rw [hc2]
      refine ⟨le_refl _, by simp, fun _ _ => rfl, ?_⟩
      intro j hj _
      exact getD_append_left _ _ _ _ hj

theorem branch_isolation_witness :
    0 < (Heap.mk [orderOf [("A", 1), ("C", 1)]] [∅]).orders.length ∧
    0 < (Heap.mk [orderOf [("A", 1), ("C", 1)]] [∅]).visiteds.length ∧
    (calculateCostHeap 4 (Heap.mk [orderOf [("A", 1), ("C", 1)]] [∅]) 0 "C1" 0 0).map
        Prod.fst
      = calculateCostFuel 4 ((Heap.mk [orderOf [("A", 1), ("C", 1)]] [∅]).orderAt 0) "C1"
          ((Heap.mk [orderOf [("A", 1), ("C", 1)]] [∅]).visitedAt 0) 0 :=
  ⟨by decide, by decide,
    (branch_isolation 4 (Heap.mk [orderOf [("A", 1), ("C", 1)]] [∅]) 0 "C1" 0 0
      (by decide) (by decide)).1⟩

end MinDeliveryCost
